import Mathlib

/-!
# devicon-extractor: selection heuristic, file scanner and dispatcher

A shallow embedding of `extractor.go` and `file_utils.go`.

Modelling conventions.

* A Go `string` is modelled as the list of its runes (`List Char`); the
  development therefore speaks about strings that are valid UTF-8.
* The Unicode case tables used by `strings.ToLower` and `strings.EqualFold`
  belong to the Go runtime, not to this repository.  They are taken as a
  parameter (`CaseTables`); `asciiTables` is the instance that agrees with Go on
  strings of ASCII runes and is used wherever a concrete input is evaluated.
* `path/filepath` is modelled for a Unix target (separator `/`, no volume
  names).
-/

namespace Devicon

/-- A Go string, as the sequence of its runes. -/
abbrev GoString := List Char

/-- The rune-level case tables of the Go runtime: `unicode.ToLower`, and the
relation "same `unicode.SimpleFold` orbit" that `strings.EqualFold` tests. -/
structure CaseTables where
  toLowerRune : Char → Char
  foldEq : Char → Char → Bool

/-- Lower-casing of one ASCII rune, every other rune unchanged. -/
def asciiLowerRune (c : Char) : Char :=
  if 65 ≤ c.toNat ∧ c.toNat ≤ 90 then Char.ofNat (c.toNat + 32) else c

/-- The case tables restricted to ASCII letters. -/
def asciiTables : CaseTables where
  toLowerRune := asciiLowerRune
  foldEq := fun a b => asciiLowerRune a == asciiLowerRune b

/-! ## `strings` -/

/-- Go `strings.ToLower`: every rune mapped through `unicode.ToLower`. -/
def toLower (U : CaseTables) (s : GoString) : GoString :=
  s.map U.toLowerRune

/-- Go `strings.HasPrefix`. -/
def hasPrefix : GoString → GoString → Bool
  | _, [] => true
  | [], _ :: _ => false
  | c :: s, d :: p => c == d && hasPrefix s p

/-- Go `strings.Contains` (`strings.Index(s, substr) >= 0`): scan the start
positions of `s` from the left. -/
def contains : GoString → GoString → Bool
  | [], substr => hasPrefix [] substr
  | c :: s, substr => hasPrefix (c :: s) substr || contains s substr

/-- Go `strings.HasSuffix`. -/
def hasSuffix (s suffix : GoString) : Bool :=
  suffix.length ≤ s.length && s.drop (s.length - suffix.length) == suffix

/-- Go `strings.TrimSuffix`: `s[:len(s)-len(suffix)]` when `s` ends in `suffix`,
otherwise `s` unchanged. -/
def trimSuffix (s suffix : GoString) : GoString :=
  if hasSuffix s suffix then s.take (s.length - suffix.length) else s

/-- Go `strings.EqualFold`: rune by rune, equal or in the same fold orbit; the
two strings must run out together. -/
def equalFold (U : CaseTables) : GoString → GoString → Bool
  | [], [] => true
  | [], _ :: _ => false
  | _ :: _, [] => false
  | c :: s, d :: t => (c == d || U.foldEq c d) && equalFold U s t

/-! ## `path/filepath` (Unix) -/

/-- The path separator test `os.IsPathSeparator`. -/
def isPathSeparator (c : Char) : Bool := c == '/'

/-- Strip trailing separators (first loop of `filepath.Base`). -/
def stripTrailingSeparators (path : GoString) : GoString :=
  (path.reverse.dropWhile isPathSeparator).reverse

/-- The part after the last separator (second loop of `filepath.Base`). -/
def lastElement (path : GoString) : GoString :=
  (path.reverse.takeWhile (fun c => !isPathSeparator c)).reverse

/-- Go `filepath.Base`. -/
def base (path : GoString) : GoString :=
  if path = [] then ['.']
  else
    let p := lastElement (stripTrailingSeparators path)
    if p = [] then ['/'] else p

/-- The backwards scan of `filepath.Ext` over the reversed path: `acc` holds the
runes already passed, in path order. -/
def extScan : GoString → GoString → GoString
  | [], _ => []
  | c :: rest, acc =>
    if isPathSeparator c then []
    else if c == '.' then c :: acc
    else extScan rest (c :: acc)

/-- Go `filepath.Ext`: the suffix starting at the last dot of the last path
element, empty when there is none. -/
def ext (path : GoString) : GoString :=
  extScan path.reverse []

/-! ## `selectBestSVG` -/

/-- The literal `"original"`. -/
def originalToken : GoString := "original".toList

/-- The literal `"plain"`. -/
def plainToken : GoString := "plain".toList

/-- The literal `".svg"`. -/
def svgSuffix : GoString := ".svg".toList

/-- Loop condition of the first loop of `selectBestSVG`. -/
def isOriginal (U : CaseTables) (file : GoString) : Bool :=
  contains (toLower U (base file)) originalToken

/-- Loop condition of the second loop of `selectBestSVG`. -/
def isStemMatch (U : CaseTables) (techName file : GoString) : Bool :=
  equalFold U (trimSuffix (base file) svgSuffix) techName

/-- Loop condition of the third loop of `selectBestSVG`. -/
def isPlain (U : CaseTables) (file : GoString) : Bool :=
  contains (toLower U (base file)) plainToken

/-- A `for _, file := range svgFiles { if cond(file) { return file } }` loop:
`some file` when the loop returns, `none` when it falls through. -/
def rangeReturn (cond : GoString → Bool) : List GoString → Option GoString
  | [] => none
  | file :: rest => if cond file then some file else rangeReturn cond rest

/-- Go `selectBestSVG` (extractor.go). -/
def selectBestSVG (U : CaseTables) (svgFiles : List GoString) (techName : GoString) :
    GoString :=
  match rangeReturn (isOriginal U) svgFiles with
  | some file => file
  | none =>
    match rangeReturn (isStemMatch U techName) svgFiles with
    | some file => file
    | none =>
      match rangeReturn (isPlain U) svgFiles with
      | some file => file
      | none =>
        if svgFiles.length = 1 then svgFiles.headD []
        else if svgFiles.length > 0 then svgFiles.headD []
        else []

/-- The stem of a candidate as the selection rule words it for the files the
scanner yields: the file name without its extension, the extension being `.svg`
in any letter case (the test `FindSVGFiles` applies). -/
def stemAnyCase (U : CaseTables) (file : GoString) : GoString :=
  let name := base file
  if toLower U (ext name) = svgSuffix then name.take (name.length - (ext name).length)
  else name

/-- A name contains `token` in some letter case: one of its substrings
lower-cases to `token`. -/
def HasTokenAnyCase (U : CaseTables) (token name : GoString) : Prop :=
  ∃ pre mid post, name = pre ++ mid ++ post ∧ toLower U mid = token

/-! ## The file system seen by `filepath.Walk` -/

/-- An operating-system error code. -/
structure IOError where
  code : Nat
  deriving DecidableEq, Repr

/-- What `Lstat` reports for an entry that is not a directory. -/
inductive FileKind
  | regular
  | symlink
  | special
  deriving DecidableEq, Repr

mutual
/-- A file-system subtree as `filepath.Walk` observes it. -/
inductive FSNode
  /-- An entry for which `Lstat` succeeds and `IsDir()` is false. -/
  | file (kind : FileKind)
  /-- A directory (`Lstat` succeeds, `IsDir()` is true) whose names are read; the
  entries are in the order `readDirNames` returns them. -/
  | dir (entries : FSEntries)
  /-- A directory (`Lstat` succeeds, `IsDir()` is true) whose names cannot be read. -/
  | dirUnreadable (err : IOError)
  /-- An entry for which `Lstat` fails. -/
  | lstatFails (err : IOError)
/-- The named entries of a directory. -/
inductive FSEntries
  | nil
  | cons (name : GoString) (node : FSNode) (rest : FSEntries)
end

/-- The part of `os.FileInfo` that matters here: `IsDir()` and `Mode().IsRegular()`. -/
structure FileInfo where
  isDir : Bool
  isRegular : Bool
  deriving DecidableEq, Repr

/-- The `FileInfo` that `Lstat` returns for a node, `none` when `Lstat` fails. -/
def FSNode.lstat : FSNode → Option FileInfo
  | .file kind => some { isDir := false, isRegular := decide (kind = FileKind.regular) }
  | .dir _ => some { isDir := true, isRegular := false }
  | .dirUnreadable _ => some { isDir := true, isRegular := false }
  | .lstatFails _ => none

/-- An `error` value travelling through `filepath.Walk`. -/
inductive WalkErr
  | skipDir
  | skipAll
  | io (err : IOError)
  deriving DecidableEq, Repr

/-- Go `filepath.Join(path, name)` for a clean, non-root `path` and a directory
entry name `name`. -/
def joinPath (path name : GoString) : GoString :=
  path ++ '/' :: name

/-- Go `filepath.WalkFunc`, threading the state its closure captures. -/
abbrev WalkFunc (σ : Type) := GoString → Option FileInfo → Option WalkErr → σ → σ × Option WalkErr

mutual
/-- Go `filepath.walk`. -/
def walk {σ : Type} (walkFn : WalkFunc σ) (path : GoString) : FSNode → σ → σ × Option WalkErr
  | .file kind, s => walkFn path (FSNode.file kind).lstat none s
  | .lstatFails err, s => walkFn path none (some (WalkErr.io err)) s
  | .dirUnreadable err, s =>
    walkFn path (FSNode.dirUnreadable err).lstat (some (WalkErr.io err)) s
  | .dir entries, s =>
    match walkFn path (FSNode.dir entries).lstat none s with
    | (s1, some err1) => (s1, some err1)
    | (s1, none) => walkEntries walkFn path entries s1
/-- The `for _, name := range names` loop of `filepath.walk`. -/
def walkEntries {σ : Type} (walkFn : WalkFunc σ) (path : GoString) :
    FSEntries → σ → σ × Option WalkErr
  | .nil, s => (s, none)
  | .cons name (.lstatFails err) rest, s =>
    match walkFn (joinPath path name) none (some (WalkErr.io err)) s with
    | (s1, none) => walkEntries walkFn path rest s1
    | (s1, some WalkErr.skipDir) => walkEntries walkFn path rest s1
    | (s1, some e) => (s1, some e)
  | .cons name (.file kind) rest, s =>
    match walk walkFn (joinPath path name) (.file kind) s with
    | (s1, none) => walkEntries walkFn path rest s1
    | (s1, some e) => (s1, some e)
  | .cons name (.dir entries) rest, s =>
    match walk walkFn (joinPath path name) (.dir entries) s with
    | (s1, none) => walkEntries walkFn path rest s1
    | (s1, some WalkErr.skipDir) => walkEntries walkFn path rest s1
    | (s1, some e) => (s1, some e)
  | .cons name (.dirUnreadable err) rest, s =>
    match walk walkFn (joinPath path name) (.dirUnreadable err) s with
    | (s1, none) => walkEntries walkFn path rest s1
    | (s1, some WalkErr.skipDir) => walkEntries walkFn path rest s1
    | (s1, some e) => (s1, some e)
end

/-- Go `filepath.Walk`. -/
def Walk {σ : Type} (root : GoString) (rootNode : FSNode) (walkFn : WalkFunc σ) (s : σ) :
    σ × Option WalkErr :=
  match walk walkFn root rootNode s with
  | (s1, some WalkErr.skipDir) => (s1, none)
  | (s1, some WalkErr.skipAll) => (s1, none)
  | (s1, err) => (s1, err)

/-! ## `file_utils.go` -/

/-- The closure passed to `filepath.Walk` in `FindSVGFiles`; the state is the
captured slice `svgFiles`. -/
def findSVGWalkFn (U : CaseTables) : WalkFunc (List GoString) :=
  fun path info err svgFiles =>
    match err with
    | some e => (svgFiles, some e)
    | none =>
      match info with
      | some info =>
        if !info.isDir && toLower U (ext path) == svgSuffix then (svgFiles ++ [path], none)
        else (svgFiles, none)
      | none => (svgFiles, none)

/-- Go `FindSVGFiles` (file_utils.go): the slice and the error of the walk. -/
def FindSVGFiles (U : CaseTables) (dir : GoString) (tree : FSNode) :
    List GoString × Option WalkErr :=
  Walk dir tree (findSVGWalkFn U) []

/-- The outcome of the three system calls of `CopyFile`, as the operating system
decides them. -/
structure OS where
  openErr : GoString → Option IOError
  createErr : GoString → Option IOError
  copyErr : GoString → GoString → Option IOError

/-- The observable effects of a run: the `CopyFile` calls made and the files
`os.Create` has created or truncated. -/
structure Effects where
  copyFileCalls : List (GoString × GoString)
  created : List GoString
  deriving DecidableEq, Repr

/-- The three failures of `CopyFile`. -/
inductive CopyError
  | openFailed (err : IOError)
  | createFailed (err : IOError)
  | copyContentFailed (err : IOError)
  deriving DecidableEq, Repr

/-- Go `CopyFile` (file_utils.go). -/
def CopyFile (os : OS) (src dst : GoString) (w : Effects) : Effects × Option CopyError :=
  let w1 : Effects := { w with copyFileCalls := w.copyFileCalls ++ [(src, dst)] }
  match os.openErr src with
  | some e => (w1, some (CopyError.openFailed e))
  | none =>
    match os.createErr dst with
    | some e => (w1, some (CopyError.createFailed e))
    | none =>
      let w2 : Effects := { w1 with created := w1.created ++ [dst] }
      match os.copyErr src dst with
      | some e => (w2, some (CopyError.copyContentFailed e))
      | none => (w2, none)

/-! ## `processTechDirectory` -/

/-- The four errors `processTechDirectory` returns. -/
inductive ProcError
  /-- The error "failed to find SVG files: ...". -/
  | findFailed (err : WalkErr)
  /-- The error "no SVG files found". -/
  | noSVGFilesFound
  /-- The error "no suitable SVG file found". -/
  | noSuitableSVG
  /-- The error "failed to copy file: ...". -/
  | copyFailed (err : CopyError)
  deriving DecidableEq, Repr

/-- Go `processTechDirectory` (extractor.go), on the subtree found at `techPath`. -/
def processTechDirectory (U : CaseTables) (os : OS) (outputDir : GoString)
    (techPath techName : GoString) (tree : FSNode) (w : Effects) :
    Effects × Option ProcError :=
  match FindSVGFiles U techPath tree with
  | (_, some err) => (w, some (ProcError.findFailed err))
  | (svgFiles, none) =>
    if svgFiles.length = 0 then (w, some ProcError.noSVGFilesFound)
    else
      let selectedFile := selectBestSVG U svgFiles techName
      if selectedFile = [] then (w, some ProcError.noSuitableSVG)
      else
        let outputFileName := techName ++ svgSuffix
        let outputPath := joinPath outputDir outputFileName
        match CopyFile os selectedFile outputPath w with
        | (w1, some err) => (w1, some (ProcError.copyFailed err))
        | (w1, none) => (w1, none)

/-! ## Reference listing of a subtree -/

mutual
/-- Every entry of a subtree with its path, in pre-order. -/
def preorder (path : GoString) : FSNode → List (GoString × FSNode)
  | .file kind => [(path, .file kind)]
  | .lstatFails err => [(path, .lstatFails err)]
  | .dirUnreadable err => [(path, .dirUnreadable err)]
  | .dir entries => (path, .dir entries) :: preorderEntries path entries
/-- The entries below a directory, in pre-order. -/
def preorderEntries (path : GoString) : FSEntries → List (GoString × FSNode)
  | .nil => []
  | .cons name node rest => preorder (joinPath path name) node ++ preorderEntries path rest
end

mutual
/-- The subtree is read without error: every `Lstat` and every directory read
succeeds. -/
def FSNode.readable : FSNode → Bool
  | .file _ => true
  | .dir entries => entries.readable
  | .dirUnreadable _ => false
  | .lstatFails _ => false
/-- Every entry is read without error. -/
def FSEntries.readable : FSEntries → Bool
  | .nil => true
  | .cons _ node rest => node.readable && rest.readable
end

/-- The entry is a directory. -/
def FSNode.isDir : FSNode → Bool
  | .dir _ => true
  | .dirUnreadable _ => true
  | _ => false

/-- The entry is a regular file. -/
def FSNode.isRegular : FSNode → Bool
  | .file FileKind.regular => true
  | _ => false


/-- The test of the `FindSVGFiles` closure on an entry: not a directory, and the
extension of its path lower-cases to `.svg`. -/
def isSVGEntry (U : CaseTables) (e : GoString × FSNode) : Bool :=
  !e.2.isDir && toLower U (ext e.1) == svgSuffix

/-- The paths of the non-directory entries with an `.svg` extension (any letter
case), in the order of the listing. -/
def svgPaths (U : CaseTables) (es : List (GoString × FSNode)) : List GoString :=
  (es.filter (isSVGEntry U)).map Prod.fst

/-- The paths of the regular files with an `.svg` extension (any letter case),
in the order of the listing. -/
def regularSVGPaths (U : CaseTables) (es : List (GoString × FSNode)) : List GoString :=
  (es.filter (fun e => e.2.isRegular && toLower U (ext e.1) == svgSuffix)).map Prod.fst

/-! ## The dispatcher: worker count and tally -/

/-- Go `TechDirJob`. -/
structure TechDirJob where
  techName : GoString
  techPath : GoString
  deriving DecidableEq, Repr

/-- Go `ProcessingResult`; the field `error` is named `err` here. -/
structure ProcessingResult where
  techName : GoString
  success : Bool
  err : Option ProcError
  deriving DecidableEq, Repr

/-- The value of `numWorkers` after the two `if` statements at the head of
`processDirectoriesParallel`, from `runtime.NumCPU()` and `len(jobs)`. -/
def numWorkers (numCPU : Int) (lenJobs : Nat) : Int :=
  let n := numCPU
  let n := if n > 8 then 8 else n
  if (lenJobs : Int) < n then (lenJobs : Int) else n

/-- The number of iterations of `for i := 0; i < numWorkers; i++`, each of which
starts one worker. -/
def workersStarted (numCPU : Int) (lenJobs : Nat) : Nat :=
  (numWorkers numCPU lenJobs).toNat

/-- Two's-complement wrap-around of a 64-bit signed integer. -/
def wrapInt64 (x : Int) : Int :=
  (x + 9223372036854775808) % 18446744073709551616 - 9223372036854775808

/-- Go `atomic.AddInt64(&x, delta)`: the new value of the counter. -/
def addInt64 (x delta : Int) : Int :=
  wrapInt64 (x + delta)

/-- One iteration of the `for result := range resultChan` loop on the pair
`(processedCount, skippedCount)`. -/
def tallyStep (counts : Int × Int) (result : ProcessingResult) : Int × Int :=
  if result.success then (addInt64 counts.1 1, counts.2)
  else (counts.1, addInt64 counts.2 1)

/-- The `for result := range resultChan` loop over the results in the order they
are received, from counters at zero. -/
def tally (results : List ProcessingResult) : Int × Int :=
  results.foldl tallyStep (0, 0)

/-! ## The dispatcher: goroutines and channels

`processDirectoriesParallel` is embedded as a transition system.  Its threads are
the calling goroutine (`main`), the workers, the goroutine that sends the jobs
(`sender`) and the goroutine that waits for the workers and closes `resultChan`
(`closer`).  A step is one blocking-free operation of one thread; the scheduler
is arbitrary, so every interleaving of the steps is an execution.  A channel is
its buffer and its closed flag; an operation that Go would answer with a panic
(a send on a closed channel, closing a closed channel, a negative `WaitGroup`
counter) is the step result `panic`.  Both channels are made with capacity
`len(jobs)`; a send needs room in the buffer.  (Capacity zero, where Go hands a
value over without a buffer, arises only for an empty job list, and then no
thread ever sends.) -/

/-- The input of one run: the CPU count, the job list, and for every job the
error that `processTechDirectory` returns when a worker runs it. -/
structure Config where
  numCPU : Int
  jobs : List TechDirJob
  outcome : TechDirJob → Option ProcError

/-- Program counter of the calling goroutine. -/
inductive MainPC
  /-- At the test `i < numWorkers` of the loop that starts the workers. -/
  | spawnLoop (i : Nat)
  /-- Before the `go` statement of the sending goroutine. -/
  | goSender
  /-- Before the `go` statement of the closing goroutine. -/
  | goCloser
  /-- At the receive of `for result := range resultChan`. -/
  | collect
  /-- After `return processedCount, skippedCount`. -/
  | returned
  deriving DecidableEq, Repr

/-- Program counter of one worker. -/
inductive WorkerPC
  /-- At the receive of `for job := range jobChan`. -/
  | recv
  /-- About to call `processTechDirectory` for the job. -/
  | run (job : TechDirJob)
  /-- About to send the result on `resultChan`. -/
  | send (result : ProcessingResult)
  /-- After the deferred `wg.Done()`. -/
  | exited
  deriving DecidableEq, Repr

/-- Program counter of the sending goroutine. -/
inductive SenderPC
  | notStarted
  /-- In `for _, job := range jobs`, with the jobs still to send. -/
  | sending (rest : List TechDirJob)
  /-- After the deferred `close(jobChan)`. -/
  | done
  deriving DecidableEq, Repr

/-- Program counter of the closing goroutine. -/
inductive CloserPC
  | notStarted
  /-- In `wg.Wait()`. -/
  | waiting
  /-- Before `close(resultChan)`. -/
  | closing
  | done
  deriving DecidableEq, Repr

/-- The shared state of one run of `processDirectoriesParallel`. -/
structure DState where
  main : MainPC
  workers : List WorkerPC
  sender : SenderPC
  closer : CloserPC
  jobChan : List TechDirJob
  jobChanClosed : Bool
  resultChan : List ProcessingResult
  resultChanClosed : Bool
  wg : Int
  counts : Int × Int
  deriving DecidableEq, Repr

/-- The thread that takes the next step. -/
inductive Action
  | main
  | sender
  | closer
  | worker (i : Nat)
  deriving DecidableEq, Repr

/-- What a thread does when it is scheduled. -/
inductive StepResult
  | blocked
  | panic
  | ok (s : DState)
  deriving DecidableEq, Repr

/-- The state at entry, before the first loop test. -/
def initState : DState where
  main := .spawnLoop 0
  workers := []
  sender := .notStarted
  closer := .notStarted
  jobChan := []
  jobChanClosed := false
  resultChan := []
  resultChanClosed := false
  wg := 0
  counts := (0, 0)

/-- One step of the calling goroutine. -/
def stepMain (cfg : Config) (s : DState) : StepResult :=
  match s.main with
  | .spawnLoop i =>
    if (i : Int) < numWorkers cfg.numCPU cfg.jobs.length then
      .ok { s with wg := s.wg + 1, workers := s.workers ++ [WorkerPC.recv],
                   main := .spawnLoop (i + 1) }
    else .ok { s with main := .goSender }
  | .goSender => .ok { s with sender := .sending cfg.jobs, main := .goCloser }
  | .goCloser => .ok { s with closer := .waiting, main := .collect }
  | .collect =>
    match s.resultChan with
    | result :: rest => .ok { s with resultChan := rest, counts := tallyStep s.counts result }
    | [] => if s.resultChanClosed then .ok { s with main := .returned } else .blocked
  | .returned => .blocked

/-- One step of the sending goroutine. -/
def stepSender (cfg : Config) (s : DState) : StepResult :=
  match s.sender with
  | .notStarted => .blocked
  | .sending (job :: rest) =>
    if s.jobChanClosed then .panic
    else if s.jobChan.length < cfg.jobs.length then
      .ok { s with jobChan := s.jobChan ++ [job], sender := .sending rest }
    else .blocked
  | .sending [] =>
    if s.jobChanClosed then .panic
    else .ok { s with jobChanClosed := true, sender := .done }
  | .done => .blocked

/-- One step of the closing goroutine. -/
def stepCloser (s : DState) : StepResult :=
  match s.closer with
  | .notStarted => .blocked
  | .waiting => if s.wg = 0 then .ok { s with closer := .closing } else .blocked
  | .closing =>
    if s.resultChanClosed then .panic
    else .ok { s with resultChanClosed := true, closer := .done }
  | .done => .blocked

/-- The body of the worker loop up to the send: call `processTechDirectory` and
build the `ProcessingResult` (`success: err == nil`). -/
def resultOf (cfg : Config) (job : TechDirJob) : ProcessingResult :=
  let err := cfg.outcome job
  { techName := job.techName, success := err.isNone, err := err }

/-- One step of worker `i` (Go `worker`, extractor.go). -/
def stepWorker (cfg : Config) (s : DState) (i : Nat) : StepResult :=
  match s.workers[i]? with
  | none => .blocked
  | some .recv =>
    match s.jobChan with
    | job :: rest => .ok { s with jobChan := rest, workers := s.workers.set i (.run job) }
    | [] =>
      if s.jobChanClosed then
        if s.wg - 1 < 0 then .panic
        else .ok { s with wg := s.wg - 1, workers := s.workers.set i .exited }
      else .blocked
  | some (.run job) =>
    .ok { s with workers := s.workers.set i (.send (resultOf cfg job)) }
  | some (.send result) =>
    if s.resultChanClosed then .panic
    else if s.resultChan.length < cfg.jobs.length then
      .ok { s with resultChan := s.resultChan ++ [result], workers := s.workers.set i .recv }
    else .blocked
  | some .exited => .blocked

/-- One step of the scheduled thread. -/
def step (cfg : Config) (s : DState) : Action → StepResult
  | .main => stepMain cfg s
  | .sender => stepSender cfg s
  | .closer => stepCloser s
  | .worker i => stepWorker cfg s i

/-- Run a schedule: every scheduled thread must be able to step. -/
def exec (cfg : Config) : List Action → DState → Option DState
  | [], s => some s
  | a :: rest, s =>
    match step cfg s a with
    | .ok s1 => exec cfg rest s1
    | _ => none

/-- The first thread able to step among `main`, `sender`, `closer` and the
workers `0 .. n-1`, with the state it steps to. -/
def firstEnabled (cfg : Config) (s : DState) : List Action → Option (Action × DState)
  | [] => none
  | a :: rest =>
    match step cfg s a with
    | .ok s1 => some (a, s1)
    | _ => firstEnabled cfg s rest

/-- All threads of a state. -/
def allActions (s : DState) : List Action :=
  [Action.main, Action.sender, Action.closer] ++ (List.range s.workers.length).map Action.worker

/-- Run under the scheduler that always takes the first thread able to step,
for at most `fuel` steps. -/
def runFirstEnabled (cfg : Config) : Nat → DState → DState
  | 0, s => s
  | fuel + 1, s =>
    match firstEnabled cfg s (allActions s) with
    | some (_, s1) => runFirstEnabled cfg fuel s1
    | none => s

/-- The bound on the number of steps of a run: `5 * len(jobs)` for the jobs,
two per worker, seven for the three other goroutines. -/
def stepBound (cfg : Config) : Nat :=
  5 * cfg.jobs.length + 2 * workersStarted cfg.numCPU cfg.jobs.length + 7

/-- The fourteen transitions of the system, as a relation between a state and
its successor: what `step` does when it answers `ok`. -/
inductive Fires (cfg : Config) (s : DState) : DState → Prop
  | spawn (i : Nat) (hm : s.main = .spawnLoop i)
      (hlt : i < workersStarted cfg.numCPU cfg.jobs.length) :
      Fires cfg s { s with wg := s.wg + 1, workers := s.workers ++ [WorkerPC.recv],
                           main := .spawnLoop (i + 1) }
  | spawnDone (i : Nat) (hm : s.main = .spawnLoop i)
      (hge : workersStarted cfg.numCPU cfg.jobs.length ≤ i) :
      Fires cfg s { s with main := .goSender }
  | goSender (hm : s.main = .goSender) :
      Fires cfg s { s with sender := .sending cfg.jobs, main := .goCloser }
  | goCloser (hm : s.main = .goCloser) :
      Fires cfg s { s with closer := .waiting, main := .collect }
  | collect (result : ProcessingResult) (rest : List ProcessingResult)
      (hm : s.main = .collect) (hr : s.resultChan = result :: rest) :
      Fires cfg s { s with resultChan := rest, counts := tallyStep s.counts result }
  | finish (hm : s.main = .collect) (hr : s.resultChan = [])
      (hc : s.resultChanClosed = true) :
      Fires cfg s { s with main := .returned }
  | sendJob (job : TechDirJob) (rest : List TechDirJob)
      (hs : s.sender = .sending (job :: rest)) (hc : s.jobChanClosed = false)
      (hroom : s.jobChan.length < cfg.jobs.length) :
      Fires cfg s { s with jobChan := s.jobChan ++ [job], sender := .sending rest }
  | closeJobs (hs : s.sender = .sending []) (hc : s.jobChanClosed = false) :
      Fires cfg s { s with jobChanClosed := true, sender := .done }
  | waitDone (hcl : s.closer = .waiting) (hwg : s.wg = 0) :
      Fires cfg s { s with closer := .closing }
  | closeResults (hcl : s.closer = .closing) (hc : s.resultChanClosed = false) :
      Fires cfg s { s with resultChanClosed := true, closer := .done }
  | recvJob (i : Nat) (job : TechDirJob) (rest : List TechDirJob)
      (hw : s.workers[i]? = some WorkerPC.recv) (hj : s.jobChan = job :: rest) :
      Fires cfg s { s with jobChan := rest, workers := s.workers.set i (.run job) }
  | workerExit (i : Nat) (hw : s.workers[i]? = some WorkerPC.recv) (hj : s.jobChan = [])
      (hc : s.jobChanClosed = true) (hwg : 0 ≤ s.wg - 1) :
      Fires cfg s { s with wg := s.wg - 1, workers := s.workers.set i .exited }
  | runJob (i : Nat) (job : TechDirJob) (hw : s.workers[i]? = some (WorkerPC.run job)) :
      Fires cfg s { s with workers := s.workers.set i (.send (resultOf cfg job)) }
  | sendResult (i : Nat) (result : ProcessingResult)
      (hw : s.workers[i]? = some (WorkerPC.send result)) (hc : s.resultChanClosed = false)
      (hroom : s.resultChan.length < cfg.jobs.length) :
      Fires cfg s { s with resultChan := s.resultChan ++ [result],
                           workers := s.workers.set i .recv }

/-- Go `processDirectoriesParallel` (extractor.go): the pair
`(processedCount, skippedCount)` at the `return`, under the scheduler that
always takes the first thread able to step. -/
def processDirectoriesParallel (cfg : Config) : Int × Int :=
  (runFirstEnabled cfg (stepBound cfg) initState).counts

/-! ### Quantities used in the proofs -/

/-- Sum of a weight over a list. -/
def sumBy {α : Type} (f : α → Nat) (l : List α) : Nat :=
  (l.map f).sum

/-- Weight 1 for a job whose run succeeds (`b = true`) or fails (`b = false`). -/
def hitJob (cfg : Config) (b : Bool) (job : TechDirJob) : Nat :=
  if (cfg.outcome job).isNone = b then 1 else 0

/-- Weight 1 for a result whose `success` is `b`. -/
def hitResult (b : Bool) (r : ProcessingResult) : Nat :=
  if r.success = b then 1 else 0

/-- The job or result a worker holds, weighted as above. -/
def hitWorker (cfg : Config) (b : Bool) : WorkerPC → Nat
  | .run job => hitJob cfg b job
  | .send r => hitResult b r
  | _ => 0

/-- The jobs the sender has not sent yet. -/
def unsent (cfg : Config) : SenderPC → List TechDirJob
  | .notStarted => cfg.jobs
  | .sending rest => rest
  | .done => []

/-- The jobs (of kind `b`) that are under way: not sent, in `jobChan`, held by a
worker, or in `resultChan`. -/
def pending (cfg : Config) (b : Bool) (s : DState) : Nat :=
  sumBy (hitJob cfg b) (unsent cfg s.sender) + sumBy (hitJob cfg b) s.jobChan
    + sumBy (hitWorker cfg b) s.workers + sumBy (hitResult b) s.resultChan

/-- The counter for kind `b`. -/
def counter (b : Bool) (counts : Int × Int) : Int :=
  if b then counts.1 else counts.2

/-- Weight 1 for a worker that has not exited. -/
def activeWorker : WorkerPC → Nat
  | .exited => 0
  | _ => 1

/-- Steps a worker still takes for what it holds, its exit included. -/
def workerSteps : WorkerPC → Nat
  | .recv => 1
  | .run _ => 4
  | .send _ => 3
  | .exited => 0

/-- Steps the calling goroutine still takes, with the steps of the workers it has
not started yet. -/
def mainSteps (cfg : Config) : MainPC → Nat
  | .spawnLoop i => 2 * (workersStarted cfg.numCPU cfg.jobs.length - i) + 4
  | .goSender => 3
  | .goCloser => 2
  | .collect => 1
  | .returned => 0

/-- Steps the sender still takes, with the steps that follow each unsent job. -/
def senderSteps (cfg : Config) : SenderPC → Nat
  | .notStarted => 5 * cfg.jobs.length + 1
  | .sending rest => 5 * rest.length + 1
  | .done => 0

/-- Steps the closer still takes. -/
def closerSteps : CloserPC → Nat
  | .notStarted => 2
  | .waiting => 2
  | .closing => 1
  | .done => 0

/-- The number of steps left in every execution from a state. -/
def stepsLeft (cfg : Config) (s : DState) : Nat :=
  mainSteps cfg s.main + senderSteps cfg s.sender + closerSteps s.closer
    + 4 * s.jobChan.length + sumBy workerSteps s.workers + s.resultChan.length

/-! ## Sample subtrees -/

/-- A technology directory with icons in mixed letter case, a subdirectory whose
own name ends in `.svg`, and files of other types. -/
def sampleTree : FSNode :=
  .dir (.cons "README.md".toList (.file .regular)
    (.cons "old.svg".toList
      (.dir (.cons "go-line.Svg".toList (.file .regular)
        (.cons "notes.txt".toList (.file .regular) .nil)))
    (.cons "go-original.svg".toList (.file .regular)
    (.cons "go-plain.SVG".toList (.file .regular)
    (.cons "go.svg.bak".toList (.file .regular) .nil)))))

/-- A technology directory whose only `.svg` entry is a symbolic link. -/
def symlinkTree : FSNode :=
  .dir (.cons "latest.svg".toList (.file .symlink) .nil)

/-- A technology directory `go` whose icon named after it carries an upper-case
extension. -/
def upperCaseTree : FSNode :=
  .dir (.cons "GO.SVG".toList (.file .regular)
    (.cons "go-plain.svg".toList (.file .regular) .nil))

/-- A technology directory named `a.SVG` that holds `a-plain.svg` and `a.SVG`. -/
def svgNamedPlainTree : FSNode :=
  .dir (.cons "a-plain.svg".toList (.file .regular)
    (.cons "a.SVG".toList (.file .regular) .nil))

/-- A technology directory named `a.SVG` that holds `a-line.svg` and `a.SVG`. -/
def svgNamedLineTree : FSNode :=
  .dir (.cons "a-line.svg".toList (.file .regular)
    (.cons "a.SVG".toList (.file .regular) .nil))

/-- A technology directory without any SVG file; one subdirectory is named like
one. -/
def noSVGTree : FSNode :=
  .dir (.cons "README.md".toList (.file .regular)
    (.cons "icon.svg".toList (.dir (.cons "icon.png".toList (.file .regular) .nil)) .nil))

/-- An operating system on which every call of `CopyFile` succeeds. -/
def okOS : OS where
  openErr := fun _ => none
  createErr := fun _ => none
  copyErr := fun _ _ => none

/-- The position of the calling goroutine in its straight-line code. -/
def phase : MainPC → Nat
  | .spawnLoop _ => 0
  | .goSender => 1
  | .goCloser => 2
  | .collect => 3
  | .returned => 4

/-- The invariant of the transition system. -/
structure Inv (cfg : Config) (s : DState) : Prop where
  senderPhase : s.sender = SenderPC.notStarted ↔ phase s.main ≤ 1
  closerPhase : s.closer = CloserPC.notStarted ↔ phase s.main ≤ 2
  spawned : ∀ i, s.main = MainPC.spawnLoop i →
    s.workers.length = i ∧ i ≤ workersStarted cfg.numCPU cfg.jobs.length
  allSpawned : 1 ≤ phase s.main → s.workers.length = workersStarted cfg.numCPU cfg.jobs.length
  returned : s.main = MainPC.returned → s.resultChanClosed = true ∧ s.resultChan = []
  wgCount : s.wg = ((sumBy activeWorker s.workers : Nat) : Int)
  jobClosed : s.jobChanClosed = true ↔ s.sender = SenderPC.done
  resClosed : s.resultChanClosed = true ↔ s.closer = CloserPC.done
  closerLate : s.closer = CloserPC.closing ∨ s.closer = CloserPC.done →
    sumBy activeWorker s.workers = 0
  exited : sumBy activeWorker s.workers < s.workers.length →
    s.sender = SenderPC.done ∧ s.jobChan = []
  count : ∀ b, counter b s.counts + ((pending cfg b s : Nat) : Int)
    = ((sumBy (hitJob cfg b) cfg.jobs : Nat) : Int)
  nonneg : ∀ b, 0 ≤ counter b s.counts

/-- A sample job list: three technology directories. -/
def sampleJobs : List TechDirJob :=
  [⟨"go".toList, "icons/go".toList⟩, ⟨"rust".toList, "icons/rust".toList⟩,
    ⟨"link".toList, "icons/link".toList⟩]

/-- The subtree found at the path of a sample job. -/
def sampleDisk (techPath : GoString) : FSNode :=
  if techPath = "icons/go".toList then sampleTree
  else if techPath = "icons/rust".toList then noSVGTree
  else symlinkTree

/-- A run on two CPUs over the sample jobs, each outcome computed by
`processTechDirectory` on the sample subtrees. -/
def sampleConfig : Config where
  numCPU := 2
  jobs := sampleJobs
  outcome := fun job =>
    (processTechDirectory asciiTables okOS "svgs".toList job.techPath job.techName
      (sampleDisk job.techPath) ⟨[], []⟩).2

/-- A schedule for `sampleConfig` that interleaves the two workers. -/
def sampleSchedule : List Action :=
  [.main, .main, .main, .main, .sender, .sender, .worker 1, .sender, .main, .worker 0,
   .sender, .worker 1, .worker 1, .main, .worker 0, .worker 1, .worker 1, .worker 1, .main,
   .worker 0, .main, .worker 1, .worker 0, .closer, .closer, .main]

/-- Three results in one arrival order. -/
def sampleResults : List ProcessingResult :=
  [⟨"go".toList, true, none⟩, ⟨"rust".toList, false, some ProcError.noSVGFilesFound⟩,
    ⟨"vim".toList, true, none⟩]

/-- The same three results with the first two arrivals exchanged. -/
def sampleResultsSwapped : List ProcessingResult :=
  [⟨"rust".toList, false, some ProcError.noSVGFilesFound⟩, ⟨"go".toList, true, none⟩,
    ⟨"vim".toList, true, none⟩]

/-! ## Lemmas on the string primitives -/

theorem hasPrefix_iff (s p : GoString) : hasPrefix s p = true ↔ p <+: s := by
  induction s generalizing p with
  | nil => cases p <;> simp [hasPrefix]
  | cons c s ih =>
    cases p with
    | nil => simp [hasPrefix]
    | cons d p =>
      simp only [hasPrefix, Bool.and_eq_true, beq_iff_eq, ih, List.cons_prefix_cons]
      constructor
      · rintro ⟨h, h2⟩; exact ⟨h.symm, h2⟩
      · rintro ⟨h, h2⟩; exact ⟨h.symm, h2⟩

theorem contains_iff (s substr : GoString) : contains s substr = true ↔ substr <:+: s := by
  induction s with
  | nil =>
    cases substr <;> simp [contains, hasPrefix]
  | cons c s ih =>
    simp only [contains, Bool.or_eq_true, hasPrefix_iff, ih, List.infix_cons_iff]

theorem infix_map_iff (f : Char → Char) (name token : GoString) :
    token <:+: name.map f ↔ ∃ pre mid post, name = pre ++ mid ++ post ∧ mid.map f = token := by
  constructor
  · rintro ⟨a, b, h⟩
    refine ⟨name.take a.length, (name.drop a.length).take token.length,
      (name.drop a.length).drop token.length, ?_, ?_⟩
    · simp [List.append_assoc, List.take_append_drop]
    · have h1 : (name.map f).drop a.length = token ++ b := by
        rw [← h]; simp [List.append_assoc]
      have h2 : ((name.map f).drop a.length).take token.length = token := by
        rw [h1]; simp
      rw [List.map_take, List.map_drop]; exact h2
  · rintro ⟨pre, mid, post, h, hm⟩
    refine ⟨pre.map f, post.map f, ?_⟩
    rw [h, ← hm]; simp

/-- The substring test of `selectBestSVG` says exactly that the name contains the
token in some letter case. -/
theorem contains_toLower_iff (U : CaseTables) (token name : GoString) :
    contains (toLower U name) token = true ↔ HasTokenAnyCase U token name := by
  rw [contains_iff, HasTokenAnyCase]
  exact infix_map_iff U.toLowerRune name token

theorem isOriginal_iff (U : CaseTables) (file : GoString) :
    isOriginal U file = true ↔ HasTokenAnyCase U originalToken (base file) :=
  contains_toLower_iff U originalToken (base file)

theorem isPlain_iff (U : CaseTables) (file : GoString) :
    isPlain U file = true ↔ HasTokenAnyCase U plainToken (base file) :=
  contains_toLower_iff U plainToken (base file)

/-! ## Lemmas on the range loops -/

theorem rangeReturn_none_iff (cond : GoString → Bool) (files : List GoString) :
    rangeReturn cond files = none ↔ ∀ f ∈ files, cond f = false := by
  induction files with
  | nil => simp [rangeReturn]
  | cons f rest ih =>
    by_cases h : cond f = true
    · simp [rangeReturn, h]
    · simp [rangeReturn, h, ih]

/-- A range loop over a list holding a match returns the earliest match. -/
theorem rangeReturn_earliest (cond : GoString → Bool) (files : List GoString)
    (h : ∃ f ∈ files, cond f = true) :
    ∃ pre file post, files = pre ++ file :: post ∧ (∀ g ∈ pre, cond g = false) ∧
      cond file = true ∧ rangeReturn cond files = some file := by
  induction files with
  | nil => simp at h
  | cons f rest ih =>
    by_cases hf : cond f = true
    · exact ⟨[], f, rest, rfl, by simp, hf, by simp [rangeReturn, hf]⟩
    · have h2 : ∃ g ∈ rest, cond g = true := by
        obtain ⟨g, hg, hc⟩ := h
        rcases List.mem_cons.mp hg with rfl | hg
        · exact absurd hc hf
        · exact ⟨g, hg, hc⟩
      obtain ⟨pre, file, post, he, hp, hc, hr⟩ := ih h2
      refine ⟨f :: pre, file, post, by simp [he], ?_, hc, by simp [rangeReturn, hf, hr]⟩
      intro g hg
      rcases List.mem_cons.mp hg with rfl | hg
      · simpa using hf
      · exact hp g hg

theorem rangeReturn_mem (cond : GoString → Bool) (files : List GoString) (file : GoString)
    (h : rangeReturn cond files = some file) : file ∈ files := by
  induction files with
  | nil => simp [rangeReturn] at h
  | cons f rest ih =>
    by_cases hf : cond f = true
    · simp [rangeReturn, hf] at h; simp [h]
    · simp [rangeReturn, hf] at h; simp [ih h]

/-! ## The selection heuristic -/

/-- C1. Whenever some candidate's base name contains "original" in some letter
case, `selectBestSVG` returns the earliest candidate (in list order) whose base
name contains it, whatever the technology name and whatever the other candidates
match. -/
theorem selectBestSVG_original (U : CaseTables) (svgFiles : List GoString)
    (techName : GoString)
    (h : ∃ f ∈ svgFiles, HasTokenAnyCase U originalToken (base f)) :
    ∃ pre file post, svgFiles = pre ++ file :: post ∧
      (∀ g ∈ pre, ¬ HasTokenAnyCase U originalToken (base g)) ∧
      HasTokenAnyCase U originalToken (base file) ∧
      selectBestSVG U svgFiles techName = file := by
  have h1 : ∃ f ∈ svgFiles, isOriginal U f = true := by
    obtain ⟨f, hf, ht⟩ := h
    exact ⟨f, hf, (isOriginal_iff U f).mpr ht⟩
  obtain ⟨pre, file, post, he, hp, hc, hr⟩ := rangeReturn_earliest (isOriginal U) svgFiles h1
  refine ⟨pre, file, post, he, ?_, (isOriginal_iff U file).mp hc, ?_⟩
  · intro g hg hn
    have := hp g hg
    rw [(isOriginal_iff U g).mpr hn] at this
    exact absurd this (by simp)
  · simp [selectBestSVG, hr]

theorem selectBestSVG_original_witness :
    (∃ f ∈ ["foo-line.svg".toList, "icons/foo/Foo-ORIGINAL.svg".toList, "foo-plain.svg".toList,
        "foo.svg".toList, "foo-original.svg".toList],
      HasTokenAnyCase asciiTables originalToken (base f)) ∧
    ∃ pre file post,
      ["foo-line.svg".toList, "icons/foo/Foo-ORIGINAL.svg".toList, "foo-plain.svg".toList,
        "foo.svg".toList, "foo-original.svg".toList] = pre ++ file :: post ∧
      (∀ g ∈ pre, ¬ HasTokenAnyCase asciiTables originalToken (base g)) ∧
      HasTokenAnyCase asciiTables originalToken (base file) ∧
      selectBestSVG asciiTables ["foo-line.svg".toList, "icons/foo/Foo-ORIGINAL.svg".toList,
        "foo-plain.svg".toList, "foo.svg".toList, "foo-original.svg".toList] "foo".toList
        = file :=
  have hex : ∃ f ∈ ["foo-line.svg".toList, "icons/foo/Foo-ORIGINAL.svg".toList,
      "foo-plain.svg".toList, "foo.svg".toList, "foo-original.svg".toList],
      HasTokenAnyCase asciiTables originalToken (base f) :=
    ⟨"icons/foo/Foo-ORIGINAL.svg".toList, by decide,
      (isOriginal_iff asciiTables _).mp (by decide)⟩
  ⟨hex, selectBestSVG_original asciiTables _ "foo".toList hex⟩

/-- What the third loop does: when no base name contains "original", no candidate
passes the test of the second loop (base name with a literal lower-case `.svg`
suffix removed, compared by `strings.EqualFold`), and some base name contains
"plain" in some letter case, `selectBestSVG` returns the earliest candidate whose
base name contains "plain". -/
theorem selectBestSVG_plain_literal (U : CaseTables) (svgFiles : List GoString) (techName : GoString)
    (hno : ∀ f ∈ svgFiles, ¬ HasTokenAnyCase U originalToken (base f))
    (hns : ∀ f ∈ svgFiles, equalFold U (trimSuffix (base f) svgSuffix) techName = false)
    (h : ∃ f ∈ svgFiles, HasTokenAnyCase U plainToken (base f)) :
    ∃ pre file post, svgFiles = pre ++ file :: post ∧
      (∀ g ∈ pre, ¬ HasTokenAnyCase U plainToken (base g)) ∧
      HasTokenAnyCase U plainToken (base file) ∧
      selectBestSVG U svgFiles techName = file := by
  have h1 : rangeReturn (isOriginal U) svgFiles = none := by
    rw [rangeReturn_none_iff]
    intro f hf
    have := hno f hf
    rw [← isOriginal_iff] at this
    simpa using this
  have h2 : rangeReturn (isStemMatch U techName) svgFiles = none := by
    rw [rangeReturn_none_iff]
    intro f hf
    exact hns f hf
  have h3 : ∃ f ∈ svgFiles, isPlain U f = true := by
    obtain ⟨f, hf, ht⟩ := h
    exact ⟨f, hf, (isPlain_iff U f).mpr ht⟩
  obtain ⟨pre, file, post, he, hp, hc, hr⟩ := rangeReturn_earliest (isPlain U) svgFiles h3
  refine ⟨pre, file, post, he, ?_, (isPlain_iff U file).mp hc, ?_⟩
  · intro g hg hn
    have := hp g hg
    rw [(isPlain_iff U g).mpr hn] at this
    exact absurd this (by simp)
  · simp [selectBestSVG, h1, h2, hr]

theorem selectBestSVG_plain_literal_example :
    (∀ f ∈ ["icons/go/go-line.svg".toList, "icons/go/Go-Plain.svg".toList,
        "icons/go/go-plain-wordmark.svg".toList],
      ¬ HasTokenAnyCase asciiTables originalToken (base f)) ∧
    (∀ f ∈ ["icons/go/go-line.svg".toList, "icons/go/Go-Plain.svg".toList,
        "icons/go/go-plain-wordmark.svg".toList],
      equalFold asciiTables (trimSuffix (base f) svgSuffix) "go".toList = false) ∧
    (∃ f ∈ ["icons/go/go-line.svg".toList, "icons/go/Go-Plain.svg".toList,
        "icons/go/go-plain-wordmark.svg".toList],
      HasTokenAnyCase asciiTables plainToken (base f)) ∧
    ∃ pre file post,
      ["icons/go/go-line.svg".toList, "icons/go/Go-Plain.svg".toList,
        "icons/go/go-plain-wordmark.svg".toList] = pre ++ file :: post ∧
      (∀ g ∈ pre, ¬ HasTokenAnyCase asciiTables plainToken (base g)) ∧
      HasTokenAnyCase asciiTables plainToken (base file) ∧
      selectBestSVG asciiTables ["icons/go/go-line.svg".toList, "icons/go/Go-Plain.svg".toList,
        "icons/go/go-plain-wordmark.svg".toList] "go".toList = file :=
  have hno : ∀ f ∈ ["icons/go/go-line.svg".toList, "icons/go/Go-Plain.svg".toList,
      "icons/go/go-plain-wordmark.svg".toList],
      ¬ HasTokenAnyCase asciiTables originalToken (base f) := by
    intro f hf
    rw [← isOriginal_iff]
    revert f
    decide
  have hns : ∀ f ∈ ["icons/go/go-line.svg".toList, "icons/go/Go-Plain.svg".toList,
      "icons/go/go-plain-wordmark.svg".toList],
      equalFold asciiTables (trimSuffix (base f) svgSuffix) "go".toList = false := by
    decide
  have hp : ∃ f ∈ ["icons/go/go-line.svg".toList, "icons/go/Go-Plain.svg".toList,
      "icons/go/go-plain-wordmark.svg".toList],
      HasTokenAnyCase asciiTables plainToken (base f) :=
    ⟨"icons/go/Go-Plain.svg".toList, by decide, (isPlain_iff asciiTables _).mp (by decide)⟩
  ⟨hno, hns, hp, selectBestSVG_plain_literal asciiTables _ "go".toList hno hns hp⟩

/-- What the fallback does: for a non-empty candidate list in which no base name
contains "original", no candidate passes the test of the second loop (base name
with a literal lower-case `.svg` suffix removed, compared by `strings.EqualFold`)
and no base name contains "plain", `selectBestSVG` returns the first candidate,
for one candidate and for several. -/
theorem selectBestSVG_fallback_literal (U : CaseTables) (first : GoString) (rest : List GoString)
    (techName : GoString)
    (hno : ∀ f ∈ first :: rest, ¬ HasTokenAnyCase U originalToken (base f))
    (hns : ∀ f ∈ first :: rest, equalFold U (trimSuffix (base f) svgSuffix) techName = false)
    (hnp : ∀ f ∈ first :: rest, ¬ HasTokenAnyCase U plainToken (base f)) :
    selectBestSVG U (first :: rest) techName = first := by
  have h1 : rangeReturn (isOriginal U) (first :: rest) = none := by
    rw [rangeReturn_none_iff]
    intro f hf
    have := hno f hf
    rw [← isOriginal_iff] at this
    simpa using this
  have h2 : rangeReturn (isStemMatch U techName) (first :: rest) = none := by
    rw [rangeReturn_none_iff]
    intro f hf
    exact hns f hf
  have h3 : rangeReturn (isPlain U) (first :: rest) = none := by
    rw [rangeReturn_none_iff]
    intro f hf
    have := hnp f hf
    rw [← isPlain_iff] at this
    simpa using this
  simp [selectBestSVG, h1, h2, h3]

theorem selectBestSVG_fallback_literal_example :
    (∀ f ∈ "icons/vim/vim-line.svg".toList :: ["icons/vim/vim-wordmark.svg".toList],
      ¬ HasTokenAnyCase asciiTables originalToken (base f)) ∧
    (∀ f ∈ "icons/vim/vim-line.svg".toList :: ["icons/vim/vim-wordmark.svg".toList],
      equalFold asciiTables (trimSuffix (base f) svgSuffix) "vim".toList = false) ∧
    (∀ f ∈ "icons/vim/vim-line.svg".toList :: ["icons/vim/vim-wordmark.svg".toList],
      ¬ HasTokenAnyCase asciiTables plainToken (base f)) ∧
    selectBestSVG asciiTables
      ("icons/vim/vim-line.svg".toList :: ["icons/vim/vim-wordmark.svg".toList]) "vim".toList
      = "icons/vim/vim-line.svg".toList :=
  have hno : ∀ f ∈ "icons/vim/vim-line.svg".toList :: ["icons/vim/vim-wordmark.svg".toList],
      ¬ HasTokenAnyCase asciiTables originalToken (base f) := by
    intro f hf
    rw [← isOriginal_iff]
    revert f
    decide
  have hns : ∀ f ∈ "icons/vim/vim-line.svg".toList :: ["icons/vim/vim-wordmark.svg".toList],
      equalFold asciiTables (trimSuffix (base f) svgSuffix) "vim".toList = false := by
    decide
  have hnp : ∀ f ∈ "icons/vim/vim-line.svg".toList :: ["icons/vim/vim-wordmark.svg".toList],
      ¬ HasTokenAnyCase asciiTables plainToken (base f) := by
    intro f hf
    rw [← isPlain_iff]
    revert f
    decide
  ⟨hno, hns, hnp, selectBestSVG_fallback_literal asciiTables _ _ "vim".toList hno hns hnp⟩

/-- What the second loop does: when the first loop falls through and some
candidate's base name, with a literal lower-case `.svg` suffix removed, equals
the technology name under `strings.EqualFold`, `selectBestSVG` returns the
earliest such candidate, whether or not a "plain" candidate is present. -/
theorem selectBestSVG_stem_literal (U : CaseTables) (svgFiles : List GoString)
    (techName : GoString)
    (hno : ∀ f ∈ svgFiles, ¬ HasTokenAnyCase U originalToken (base f))
    (h : ∃ f ∈ svgFiles, equalFold U (trimSuffix (base f) svgSuffix) techName = true) :
    ∃ pre file post, svgFiles = pre ++ file :: post ∧
      (∀ g ∈ pre, equalFold U (trimSuffix (base g) svgSuffix) techName = false) ∧
      equalFold U (trimSuffix (base file) svgSuffix) techName = true ∧
      selectBestSVG U svgFiles techName = file := by
  have h1 : rangeReturn (isOriginal U) svgFiles = none := by
    rw [rangeReturn_none_iff]
    intro f hf
    have := hno f hf
    rw [← isOriginal_iff] at this
    simpa using this
  obtain ⟨pre, file, post, he, hp, hc, hr⟩ :=
    rangeReturn_earliest (isStemMatch U techName) svgFiles h
  exact ⟨pre, file, post, he, hp, hc, by simp [selectBestSVG, h1, hr]⟩

theorem extScan_suffix (r acc : GoString) : ∃ pre, r.reverse ++ acc = pre ++ extScan r acc := by
  induction r generalizing acc with
  | nil => exact ⟨acc, by simp [extScan]⟩
  | cons c rest ih =>
    simp only [extScan]
    split
    · exact ⟨(c :: rest).reverse ++ acc, by simp⟩
    · split
      · exact ⟨rest.reverse, by simp⟩
      · obtain ⟨pre, hpre⟩ := ih (c :: acc)
        exact ⟨pre, by rw [← hpre]; simp⟩

theorem extScan_separator (r1 r2 acc : GoString) (h : ∀ c ∈ r1, c ≠ '/') :
    extScan (r1 ++ '/' :: r2) acc = extScan r1 acc := by
  induction r1 generalizing acc with
  | nil => simp [extScan, isPathSeparator]
  | cons c rest ih =>
    have hc : c ≠ '/' := h c (by simp)
    have hrest : ∀ d ∈ rest, d ≠ '/' := fun d hd => h d (by simp [hd])
    simp only [List.cons_append, extScan, isPathSeparator, beq_iff_eq, hc, if_false]
    split
    · rfl
    · exact ih (c :: acc) hrest

/-- The extension of a path below a directory is the extension of the entry's
own name. -/
theorem ext_joinPath (path name : GoString) (h : ∀ c ∈ name, c ≠ '/') :
    ext (joinPath path name) = ext name := by
  simp only [ext, joinPath, List.reverse_append, List.reverse_cons, List.append_assoc,
    List.singleton_append]
  exact extScan_separator name.reverse path.reverse [] (by simpa using h)

/-- The extension is a suffix of the name. -/
theorem ext_suffix (name : GoString) : ∃ pre, name = pre ++ ext name := by
  obtain ⟨pre, h⟩ := extScan_suffix name.reverse []
  exact ⟨pre, by simpa [ext] using h⟩

theorem hasSuffix_append (pre suffix : GoString) : hasSuffix (pre ++ suffix) suffix = true := by
  simp [hasSuffix]

theorem hasSuffix_iff (s suffix : GoString) :
    hasSuffix s suffix = true ↔ ∃ pre, s = pre ++ suffix := by
  constructor
  · intro h
    simp only [hasSuffix, Bool.and_eq_true, decide_eq_true_eq, beq_iff_eq] at h
    refine ⟨s.take (s.length - suffix.length), ?_⟩
    conv_lhs => rw [← List.take_append_drop (s.length - suffix.length) s]
    rw [h.2]
  · rintro ⟨pre, rfl⟩
    exact hasSuffix_append pre suffix

/-- A name that ends in the literal `.svg` has the extension `.svg`. -/
theorem ext_of_svgSuffix (pre : GoString) : ext (pre ++ svgSuffix) = svgSuffix := by
  simp [ext, svgSuffix, extScan, isPathSeparator]

/-- The two notions of stem agree on every candidate whose extension is the
literal `.svg` or is not `.svg` in any letter case; they differ only on an
`.svg` extension that is not all lower-case. -/
theorem stemAnyCase_eq_trimSuffix (U : CaseTables) (hU : toLower U svgSuffix = svgSuffix)
    (file : GoString)
    (h : ext (base file) = svgSuffix ∨ toLower U (ext (base file)) ≠ svgSuffix) :
    stemAnyCase U file = trimSuffix (base file) svgSuffix := by
  rcases h with h | h
  · obtain ⟨pre, hpre⟩ := ext_suffix (base file)
    rw [h] at hpre
    have hs : hasSuffix (base file) svgSuffix = true := by
      rw [hpre]; exact hasSuffix_append pre svgSuffix
    simp [stemAnyCase, trimSuffix, h, hU, hs]
  · have hs : hasSuffix (base file) svgSuffix = false := by
      cases hh : hasSuffix (base file) svgSuffix with
      | false => rfl
      | true =>
        obtain ⟨pre, hpre⟩ := (hasSuffix_iff _ _).mp hh
        have := ext_of_svgSuffix pre
        rw [← hpre] at this
        rw [this, hU] at h
        exact absurd rfl h
    simp [stemAnyCase, trimSuffix, h, hs]

/-- Rule 2 on candidates with a lower-case extension: when every candidate's
extension is the literal `.svg`, no name contains "original", and the name of
some candidate without its extension equals the technology name
case-insensitively, `selectBestSVG` returns the earliest such candidate. -/
theorem selectBestSVG_stem_lowercase (U : CaseTables) (hU : toLower U svgSuffix = svgSuffix)
    (svgFiles : List GoString) (techName : GoString)
    (hext : ∀ f ∈ svgFiles, ext (base f) = svgSuffix)
    (hno : ∀ f ∈ svgFiles, ¬ HasTokenAnyCase U originalToken (base f))
    (h : ∃ f ∈ svgFiles, equalFold U (stemAnyCase U f) techName = true) :
    ∃ pre file post, svgFiles = pre ++ file :: post ∧
      (∀ g ∈ pre, equalFold U (stemAnyCase U g) techName = false) ∧
      equalFold U (stemAnyCase U file) techName = true ∧
      selectBestSVG U svgFiles techName = file := by
  have hstem : ∀ f ∈ svgFiles, stemAnyCase U f = trimSuffix (base f) svgSuffix :=
    fun f hf => stemAnyCase_eq_trimSuffix U hU f (Or.inl (hext f hf))
  have h2 : ∃ f ∈ svgFiles, equalFold U (trimSuffix (base f) svgSuffix) techName = true := by
    obtain ⟨f, hf, he⟩ := h
    exact ⟨f, hf, by rw [← hstem f hf]; exact he⟩
  obtain ⟨pre, file, post, he, hp, hc, hr⟩ :=
    selectBestSVG_stem_literal U svgFiles techName hno h2
  have hmem : ∀ g ∈ pre ++ file :: post, g ∈ svgFiles := by
    intro g hg; rw [he]; exact hg
  refine ⟨pre, file, post, he, ?_, ?_, hr⟩
  · intro g hg
    rw [hstem g (hmem g (by simp [hg]))]
    exact hp g hg
  · rw [hstem file (hmem file (by simp))]
    exact hc

/-- C2, evaluated on a directory `go` that holds `GO.SVG` and `go-plain.svg`.  The
scanner yields both files (each has an `.svg` extension in some letter case);
neither name contains "original"; the name `GO.SVG` without its extension equals
`go` case-insensitively.  `strings.TrimSuffix` leaves `GO.SVG` whole, the second
loop falls through, and `selectBestSVG` returns `go-plain.svg`, whose stem does
not equal `go`; `processTechDirectory` copies that file to `go.svg`. -/
theorem selectBestSVG_uppercase_extension :
    FindSVGFiles asciiTables "icons/go".toList upperCaseTree
      = (["icons/go/GO.SVG".toList, "icons/go/go-plain.svg".toList], none) ∧
    (∀ f ∈ ["icons/go/GO.SVG".toList, "icons/go/go-plain.svg".toList],
      toLower asciiTables (ext f) = svgSuffix ∧ isOriginal asciiTables f = false) ∧
    stemAnyCase asciiTables "icons/go/GO.SVG".toList = "GO".toList ∧
    equalFold asciiTables (stemAnyCase asciiTables "icons/go/GO.SVG".toList) "go".toList = true ∧
    equalFold asciiTables (stemAnyCase asciiTables "icons/go/go-plain.svg".toList) "go".toList
      = false ∧
    trimSuffix (base "icons/go/GO.SVG".toList) svgSuffix = "GO.SVG".toList ∧
    selectBestSVG asciiTables ["icons/go/GO.SVG".toList, "icons/go/go-plain.svg".toList]
      "go".toList = "icons/go/go-plain.svg".toList ∧
    processTechDirectory asciiTables okOS "svgs".toList "icons/go".toList "go".toList
      upperCaseTree ⟨[], []⟩
      = (⟨[("icons/go/go-plain.svg".toList, "svgs/go.svg".toList)], ["svgs/go.svg".toList]⟩,
         none) := by
  decide

/-- Rule 3 on candidates with a lower-case extension: when every candidate's
extension is the literal `.svg` or is not `.svg` in any letter case, no name
contains "original", no name without its extension equals the technology name
case-insensitively, and some name contains "plain", `selectBestSVG` returns the
earliest candidate whose name contains "plain". -/
theorem selectBestSVG_plain_lowercase (U : CaseTables) (hU : toLower U svgSuffix = svgSuffix)
    (svgFiles : List GoString) (techName : GoString)
    (hext : ∀ f ∈ svgFiles,
      ext (base f) = svgSuffix ∨ toLower U (ext (base f)) ≠ svgSuffix)
    (hno : ∀ f ∈ svgFiles, ¬ HasTokenAnyCase U originalToken (base f))
    (hns : ∀ f ∈ svgFiles, equalFold U (stemAnyCase U f) techName = false)
    (h : ∃ f ∈ svgFiles, HasTokenAnyCase U plainToken (base f)) :
    ∃ pre file post, svgFiles = pre ++ file :: post ∧
      (∀ g ∈ pre, ¬ HasTokenAnyCase U plainToken (base g)) ∧
      HasTokenAnyCase U plainToken (base file) ∧
      selectBestSVG U svgFiles techName = file :=
  selectBestSVG_plain_literal U svgFiles techName hno
    (fun f hf => by
      rw [← stemAnyCase_eq_trimSuffix U hU f (hext f hf)]; exact hns f hf) h

/-- Rule 4 on candidates with a lower-case extension: when every candidate's
extension is the literal `.svg` or is not `.svg` in any letter case and no
candidate matches any of the three rules, `selectBestSVG` returns the first
candidate. -/
theorem selectBestSVG_fallback_lowercase (U : CaseTables)
    (hU : toLower U svgSuffix = svgSuffix) (first : GoString) (rest : List GoString)
    (techName : GoString)
    (hext : ∀ f ∈ first :: rest,
      ext (base f) = svgSuffix ∨ toLower U (ext (base f)) ≠ svgSuffix)
    (hno : ∀ f ∈ first :: rest, ¬ HasTokenAnyCase U originalToken (base f))
    (hns : ∀ f ∈ first :: rest, equalFold U (stemAnyCase U f) techName = false)
    (hnp : ∀ f ∈ first :: rest, ¬ HasTokenAnyCase U plainToken (base f)) :
    selectBestSVG U (first :: rest) techName = first :=
  selectBestSVG_fallback_literal U first rest techName hno
    (fun f hf => by
      rw [← stemAnyCase_eq_trimSuffix U hU f (hext f hf)]; exact hns f hf) hnp

/-- C3, evaluated on a directory `a.SVG` that holds `a-plain.svg` and `a.SVG`.  The
scanner yields both files; neither name contains "original"; neither name
without its extension (`a-plain`, `a`) equals the technology name `a.SVG`
case-insensitively; the name `a-plain.svg` contains "plain".
`strings.TrimSuffix` leaves `a.SVG` whole, so the second loop compares the whole
file name with the technology name and returns `a.SVG`, whose name does not
contain "plain"; `processTechDirectory` copies that file. -/
theorem selectBestSVG_plain_uppercase_extension :
    FindSVGFiles asciiTables "icons/a.SVG".toList svgNamedPlainTree
      = (["icons/a.SVG/a-plain.svg".toList, "icons/a.SVG/a.SVG".toList], none) ∧
    (∀ f ∈ ["icons/a.SVG/a-plain.svg".toList, "icons/a.SVG/a.SVG".toList],
      isOriginal asciiTables f = false ∧
      equalFold asciiTables (stemAnyCase asciiTables f) "a.SVG".toList = false) ∧
    stemAnyCase asciiTables "icons/a.SVG/a-plain.svg".toList = "a-plain".toList ∧
    stemAnyCase asciiTables "icons/a.SVG/a.SVG".toList = "a".toList ∧
    isPlain asciiTables "icons/a.SVG/a-plain.svg".toList = true ∧
    trimSuffix (base "icons/a.SVG/a.SVG".toList) svgSuffix = "a.SVG".toList ∧
    selectBestSVG asciiTables ["icons/a.SVG/a-plain.svg".toList, "icons/a.SVG/a.SVG".toList]
      "a.SVG".toList = "icons/a.SVG/a.SVG".toList ∧
    isPlain asciiTables "icons/a.SVG/a.SVG".toList = false ∧
    (processTechDirectory asciiTables okOS "svgs".toList "icons/a.SVG".toList "a.SVG".toList
      svgNamedPlainTree ⟨[], []⟩).1.copyFileCalls
      = [("icons/a.SVG/a.SVG".toList, "svgs/a.SVG.svg".toList)] := by
  decide

/-- C4, evaluated on a directory `a.SVG` that holds `a-line.svg` and `a.SVG`.  The
scanner yields both files; no name contains "original" or "plain"; neither name
without its extension (`a-line`, `a`) equals the technology name `a.SVG`
case-insensitively, so no candidate matches any of the three rules.
`strings.TrimSuffix` leaves `a.SVG` whole, so the second loop compares the whole
file name with the technology name and returns `a.SVG`, the second candidate,
not the first; `processTechDirectory` copies that file. -/
theorem selectBestSVG_fallback_uppercase_extension :
    FindSVGFiles asciiTables "icons/a.SVG".toList svgNamedLineTree
      = (["icons/a.SVG/a-line.svg".toList, "icons/a.SVG/a.SVG".toList], none) ∧
    (∀ f ∈ ["icons/a.SVG/a-line.svg".toList, "icons/a.SVG/a.SVG".toList],
      isOriginal asciiTables f = false ∧
      equalFold asciiTables (stemAnyCase asciiTables f) "a.SVG".toList = false ∧
      isPlain asciiTables f = false) ∧
    stemAnyCase asciiTables "icons/a.SVG/a-line.svg".toList = "a-line".toList ∧
    stemAnyCase asciiTables "icons/a.SVG/a.SVG".toList = "a".toList ∧
    trimSuffix (base "icons/a.SVG/a.SVG".toList) svgSuffix = "a.SVG".toList ∧
    selectBestSVG asciiTables ["icons/a.SVG/a-line.svg".toList, "icons/a.SVG/a.SVG".toList]
      "a.SVG".toList = "icons/a.SVG/a.SVG".toList ∧
    selectBestSVG asciiTables ["icons/a.SVG/a-line.svg".toList, "icons/a.SVG/a.SVG".toList]
      "a.SVG".toList ≠ "icons/a.SVG/a-line.svg".toList ∧
    (processTechDirectory asciiTables okOS "svgs".toList "icons/a.SVG".toList "a.SVG".toList
      svgNamedLineTree ⟨[], []⟩).1.copyFileCalls
      = [("icons/a.SVG/a.SVG".toList, "svgs/a.SVG.svg".toList)] := by
  decide

/-! ## The file scanner -/

mutual
theorem walk_preserves {σ : Type} (P : σ → Prop) (walkFn : WalkFunc σ)
    (hfn : ∀ path info err s, P s → P (walkFn path info err s).1) (path : GoString) :
    ∀ (tree : FSNode) (s : σ), P s → P (walk walkFn path tree s).1
  | .file kind, s, hs => by
    simp only [walk]; exact hfn _ _ _ _ hs
  | .lstatFails err, s, hs => by
    simp only [walk]; exact hfn _ _ _ _ hs
  | .dirUnreadable err, s, hs => by
    simp only [walk]; exact hfn _ _ _ _ hs
  | .dir entries, s, hs => by
    simp only [walk]
    have h1 := hfn path (FSNode.dir entries).lstat none s hs
    rcases hw : walkFn path (FSNode.dir entries).lstat none s with ⟨s1, _ | e⟩
    · rw [hw] at h1
      exact walkEntries_preserves P walkFn hfn path entries s1 h1
    · rw [hw] at h1
      exact h1
theorem walkEntries_preserves {σ : Type} (P : σ → Prop) (walkFn : WalkFunc σ)
    (hfn : ∀ path info err s, P s → P (walkFn path info err s).1) (path : GoString) :
    ∀ (entries : FSEntries) (s : σ), P s → P (walkEntries walkFn path entries s).1
  | .nil, s, hs => by
    simp only [walkEntries]; exact hs
  | .cons name (.lstatFails err) rest, s, hs => by
    simp only [walkEntries]
    have h1 := hfn (joinPath path name) none (some (WalkErr.io err)) s hs
    rcases hw : walkFn (joinPath path name) none (some (WalkErr.io err)) s with
      ⟨s1, _ | _ | _ | e⟩ <;> rw [hw] at h1
    · exact walkEntries_preserves P walkFn hfn path rest s1 h1
    · exact walkEntries_preserves P walkFn hfn path rest s1 h1
    · exact h1
    · exact h1
  | .cons name (.file kind) rest, s, hs => by
    simp only [walkEntries]
    have h1 := walk_preserves P walkFn hfn (joinPath path name) (.file kind) s hs
    rcases hw : walk walkFn (joinPath path name) (.file kind) s with ⟨s1, _ | e⟩ <;>
      rw [hw] at h1
    · exact walkEntries_preserves P walkFn hfn path rest s1 h1
    · exact h1
  | .cons name (.dir entries) rest, s, hs => by
    simp only [walkEntries]
    have h1 := walk_preserves P walkFn hfn (joinPath path name) (.dir entries) s hs
    rcases hw : walk walkFn (joinPath path name) (.dir entries) s with
      ⟨s1, _ | _ | _ | e⟩ <;> rw [hw] at h1
    · exact walkEntries_preserves P walkFn hfn path rest s1 h1
    · exact walkEntries_preserves P walkFn hfn path rest s1 h1
    · exact h1
    · exact h1
  | .cons name (.dirUnreadable err) rest, s, hs => by
    simp only [walkEntries]
    have h1 := walk_preserves P walkFn hfn (joinPath path name) (.dirUnreadable err) s hs
    rcases hw : walk walkFn (joinPath path name) (.dirUnreadable err) s with
      ⟨s1, _ | _ | _ | e⟩ <;> rw [hw] at h1
    · exact walkEntries_preserves P walkFn hfn path rest s1 h1
    · exact walkEntries_preserves P walkFn hfn path rest s1 h1
    · exact h1
    · exact h1
end

theorem svgPaths_append (U : CaseTables) (a b : List (GoString × FSNode)) :
    svgPaths U (a ++ b) = svgPaths U a ++ svgPaths U b := by
  simp [svgPaths]

theorem findSVGWalkFn_file (U : CaseTables) (path : GoString) (kind : FileKind)
    (acc : List GoString) :
    findSVGWalkFn U path (FSNode.file kind).lstat none acc
      = (acc ++ svgPaths U [(path, FSNode.file kind)], none) := by
  by_cases h : toLower U (ext path) = svgSuffix
  · simp [findSVGWalkFn, FSNode.lstat, svgPaths, isSVGEntry, FSNode.isDir, h]
  · simp [findSVGWalkFn, FSNode.lstat, svgPaths, isSVGEntry, FSNode.isDir, h]

theorem findSVGWalkFn_dir (U : CaseTables) (path : GoString) (entries : FSEntries)
    (acc : List GoString) :
    findSVGWalkFn U path (FSNode.dir entries).lstat none acc = (acc, none) := by
  simp [findSVGWalkFn, FSNode.lstat]

mutual
theorem walk_readable (U : CaseTables) (path : GoString) :
    ∀ (tree : FSNode) (acc : List GoString), tree.readable = true →
      walk (findSVGWalkFn U) path tree acc = (acc ++ svgPaths U (preorder path tree), none)
  | .file kind, acc, _ => by
    simp only [walk, preorder]; exact findSVGWalkFn_file U path kind acc
  | .lstatFails err, acc, h => by simp [FSNode.readable] at h
  | .dirUnreadable err, acc, h => by simp [FSNode.readable] at h
  | .dir entries, acc, h => by
    have hr : entries.readable = true := by simpa [FSNode.readable] using h
    simp only [walk, findSVGWalkFn_dir, preorder]
    rw [walkEntries_readable U path entries acc hr]
    simp [svgPaths, isSVGEntry, FSNode.isDir]
theorem walkEntries_readable (U : CaseTables) (path : GoString) :
    ∀ (entries : FSEntries) (acc : List GoString), entries.readable = true →
      walkEntries (findSVGWalkFn U) path entries acc
        = (acc ++ svgPaths U (preorderEntries path entries), none)
  | .nil, acc, _ => by simp [walkEntries, preorderEntries, svgPaths]
  | .cons name (.lstatFails err) rest, acc, h => by
    simp [FSEntries.readable, FSNode.readable] at h
  | .cons name (.dirUnreadable err) rest, acc, h => by
    simp [FSEntries.readable, FSNode.readable] at h
  | .cons name (.file kind) rest, acc, h => by
    have hr : rest.readable = true := by
      simp [FSEntries.readable, FSNode.readable] at h; exact h
    simp only [walkEntries]
    rw [walk_readable U (joinPath path name) (.file kind) acc (by simp [FSNode.readable])]
    simp only []
    rw [walkEntries_readable U path rest _ hr]
    simp [preorderEntries, svgPaths_append]
  | .cons name (.dir entries) rest, acc, h => by
    have hr : entries.readable = true ∧ rest.readable = true := by
      simpa [FSEntries.readable, FSNode.readable] using h
    simp only [walkEntries]
    rw [walk_readable U (joinPath path name) (.dir entries) acc
      (by simp [FSNode.readable, hr.1])]
    simp only []
    rw [walkEntries_readable U path rest _ hr.2]
    simp [preorderEntries, svgPaths_append]
end

/-- On a subtree read without error, `FindSVGFiles` returns the non-directory
entries with an `.svg` extension, in pre-order, and no error. -/
theorem FindSVGFiles_readable (U : CaseTables) (dir : GoString) (tree : FSNode)
    (h : tree.readable = true) :
    FindSVGFiles U dir tree = (svgPaths U (preorder dir tree), none) := by
  simp [FindSVGFiles, Walk, walk_readable U dir tree [] h]

/-- Every path `FindSVGFiles` returns, with or without an error, has an
extension that lower-cases to `.svg`. -/
theorem FindSVGFiles_ext (U : CaseTables) (dir : GoString) (tree : FSNode) :
    ∀ p ∈ (FindSVGFiles U dir tree).1, toLower U (ext p) = svgSuffix := by
  have hw := walk_preserves (fun acc : List GoString => ∀ p ∈ acc, toLower U (ext p) = svgSuffix)
    (findSVGWalkFn U) (by
      intro path info err s hs
      cases err with
      | some e => simpa [findSVGWalkFn] using hs
      | none =>
        cases info with
        | none => simpa [findSVGWalkFn] using hs
        | some info =>
          by_cases hc : (!info.isDir && toLower U (ext path) == svgSuffix) = true
          · simp only [findSVGWalkFn, hc, if_true]
            intro p hp
            rcases List.mem_append.mp hp with hp | hp
            · exact hs p hp
            · simp at hp; subst hp
              simp at hc; exact hc.2
          · simp only [findSVGWalkFn, hc]
            simpa using hs) dir tree [] (by simp)
  simp only [FindSVGFiles, Walk]
  rcases hwk : walk (findSVGWalkFn U) dir tree [] with ⟨s1, _ | _ | _ | e⟩ <;>
    rw [hwk] at hw <;> simpa using hw

theorem FindSVGFiles_nonempty_paths (U : CaseTables) (dir : GoString) (tree : FSNode) :
    ∀ p ∈ (FindSVGFiles U dir tree).1, p ≠ [] := by
  intro p hp h
  have := FindSVGFiles_ext U dir tree p hp
  rw [h] at this
  simp [ext, extScan, toLower, svgSuffix] at this

/-- C9 as stated fails: the only `.svg` entry of `symlinkTree` is a symbolic link,
not a regular file, and `FindSVGFiles` returns it. -/
theorem FindSVGFiles_symlink_counterexample :
    symlinkTree.readable = true ∧
    FindSVGFiles asciiTables "icons/go".toList symlinkTree
      = (["icons/go/latest.svg".toList], none) ∧
    regularSVGPaths asciiTables (preorder "icons/go".toList symlinkTree) = [] ∧
    ¬ (FindSVGFiles asciiTables "icons/go".toList symlinkTree
      = (regularSVGPaths asciiTables (preorder "icons/go".toList symlinkTree), none)) := by
  decide

/-- C9, amended. On a subtree read without error, `FindSVGFiles` returns exactly
the non-directory entries of the subtree (regular files, and symbolic links and
special files as `Lstat` reports them) whose extension lower-cases to `.svg`, in
pre-order and with no error; no returned path is a directory; and on a subtree
whose non-directory entries are all regular files the result is exactly the
regular files with such an extension. -/
theorem FindSVGFiles_spec (U : CaseTables) (dir : GoString) (tree : FSNode)
    (h : tree.readable = true) :
    FindSVGFiles U dir tree = (svgPaths U (preorder dir tree), none) ∧
    (∀ p ∈ (FindSVGFiles U dir tree).1, ∃ node, (p, node) ∈ preorder dir tree ∧
      node.isDir = false ∧ toLower U (ext p) = svgSuffix) ∧
    ((∀ e ∈ preorder dir tree, e.2.isDir = false → e.2.isRegular = true) →
      FindSVGFiles U dir tree = (regularSVGPaths U (preorder dir tree), none)) := by
  have heq := FindSVGFiles_readable U dir tree h
  refine ⟨heq, ?_, ?_⟩
  · intro p hp
    rw [heq] at hp
    simp only [svgPaths, List.mem_map, List.mem_filter] at hp
    obtain ⟨⟨q, node⟩, ⟨hmem, hsvg⟩, rfl⟩ := hp
    simp only [isSVGEntry, Bool.and_eq_true, Bool.not_eq_true', beq_iff_eq] at hsvg
    exact ⟨node, hmem, hsvg.1, hsvg.2⟩
  · intro hreg
    rw [heq]
    simp only [svgPaths, regularSVGPaths, Prod.mk.injEq, and_true]
    congr 1
    apply List.filter_congr
    intro e he
    have hr := hreg e he
    cases hd : e.2.isDir with
    | true =>
      have : e.2.isRegular = false := by
        cases hn : e.2 with
        | file kind => rw [hn] at hd; simp [FSNode.isDir] at hd
        | dir entries => simp [FSNode.isRegular]
        | dirUnreadable err => simp [FSNode.isRegular]
        | lstatFails err => simp [FSNode.isRegular]
      simp [isSVGEntry, hd, this]
    | false => simp [isSVGEntry, hd, hr hd]

theorem FindSVGFiles_spec_witness :
    sampleTree.readable = true ∧
    FindSVGFiles asciiTables "icons/go".toList sampleTree
      = (["icons/go/old.svg/go-line.Svg".toList, "icons/go/go-original.svg".toList,
          "icons/go/go-plain.SVG".toList], none) ∧
    (FindSVGFiles asciiTables "icons/go".toList sampleTree
        = (svgPaths asciiTables (preorder "icons/go".toList sampleTree), none) ∧
      (∀ p ∈ (FindSVGFiles asciiTables "icons/go".toList sampleTree).1,
        ∃ node, (p, node) ∈ preorder "icons/go".toList sampleTree ∧
          node.isDir = false ∧ toLower asciiTables (ext p) = svgSuffix) ∧
      ((∀ e ∈ preorder "icons/go".toList sampleTree, e.2.isDir = false → e.2.isRegular = true) →
        FindSVGFiles asciiTables "icons/go".toList sampleTree
          = (regularSVGPaths asciiTables (preorder "icons/go".toList sampleTree), none))) :=
  ⟨by decide, by decide, FindSVGFiles_spec asciiTables "icons/go".toList sampleTree (by decide)⟩

/-! ## The directory job -/

/-- C5. `selectBestSVG` on the empty candidate list returns the empty string, and
`processTechDirectory` on a directory whose scan succeeds with zero SVG files
returns "no SVG files found" and leaves the effects untouched: no `CopyFile`
call is made and no file is created. -/
theorem processTechDirectory_no_svg (U : CaseTables) (os : OS)
    (outputDir techPath techName : GoString) (tree : FSNode) (w : Effects)
    (h : FindSVGFiles U techPath tree = ([], none)) :
    selectBestSVG U [] techName = [] ∧
    processTechDirectory U os outputDir techPath techName tree w
      = (w, some ProcError.noSVGFilesFound) ∧
    (processTechDirectory U os outputDir techPath techName tree w).1.copyFileCalls
      = w.copyFileCalls ∧
    (processTechDirectory U os outputDir techPath techName tree w).1.created = w.created := by
  have hp : processTechDirectory U os outputDir techPath techName tree w
      = (w, some ProcError.noSVGFilesFound) := by
    simp [processTechDirectory, h]
  refine ⟨by simp [selectBestSVG, rangeReturn], hp, ?_, ?_⟩ <;> rw [hp]

theorem processTechDirectory_no_svg_witness :
    FindSVGFiles asciiTables "icons/rust".toList noSVGTree = ([], none) ∧
    (selectBestSVG asciiTables [] "rust".toList = [] ∧
    processTechDirectory asciiTables okOS "svgs".toList "icons/rust".toList "rust".toList
        noSVGTree ⟨[], []⟩ = (⟨[], []⟩, some ProcError.noSVGFilesFound) ∧
    (processTechDirectory asciiTables okOS "svgs".toList "icons/rust".toList "rust".toList
        noSVGTree ⟨[], []⟩).1.copyFileCalls = [] ∧
    (processTechDirectory asciiTables okOS "svgs".toList "icons/rust".toList "rust".toList
        noSVGTree ⟨[], []⟩).1.created = []) :=
  ⟨by decide, processTechDirectory_no_svg asciiTables okOS "svgs".toList "icons/rust".toList
    "rust".toList noSVGTree ⟨[], []⟩ (by decide)⟩

theorem selectBestSVG_mem (U : CaseTables) (svgFiles : List GoString) (techName : GoString)
    (hne : svgFiles ≠ []) : selectBestSVG U svgFiles techName ∈ svgFiles := by
  unfold selectBestSVG
  cases h1 : rangeReturn (isOriginal U) svgFiles with
  | some f => exact rangeReturn_mem _ _ _ h1
  | none =>
    cases h2 : rangeReturn (isStemMatch U techName) svgFiles with
    | some f => exact rangeReturn_mem _ _ _ h2
    | none =>
      cases h3 : rangeReturn (isPlain U) svgFiles with
      | some f => exact rangeReturn_mem _ _ _ h3
      | none =>
        cases svgFiles with
        | nil => exact absurd rfl hne
        | cons f rest => by_cases hl : rest.length = 0 <;> simp [hl]

/-- C6. On a non-empty candidate list `selectBestSVG` returns an element of the
list; a single-candidate list yields its only candidate; when moreover every
candidate is a non-empty path the result is not the empty string; and
`processTechDirectory` never returns "no suitable SVG file found". -/
theorem selectBestSVG_total (U : CaseTables) (svgFiles : List GoString) (techName : GoString)
    (hne : svgFiles ≠ []) :
    selectBestSVG U svgFiles techName ∈ svgFiles ∧
    (∀ only : GoString, selectBestSVG U [only] techName = only) ∧
    ((∀ f ∈ svgFiles, f ≠ []) → selectBestSVG U svgFiles techName ≠ []) ∧
    (∀ (os : OS) (outputDir techPath : GoString) (tree : FSNode) (w : Effects),
      (processTechDirectory U os outputDir techPath techName tree w).2
        ≠ some ProcError.noSuitableSVG) := by
  refine ⟨selectBestSVG_mem U svgFiles techName hne, ?_, ?_, ?_⟩
  · intro only
    have := selectBestSVG_mem U [only] techName (by simp)
    simpa using this
  · intro hall
    exact hall _ (selectBestSVG_mem U svgFiles techName hne)
  · intro os outputDir techPath tree w
    have hpaths := FindSVGFiles_nonempty_paths U techPath tree
    unfold processTechDirectory
    rcases hf : FindSVGFiles U techPath tree with ⟨files, _ | e⟩
    · rw [hf] at hpaths
      by_cases hl : files.length = 0
      · simp [hl]
      · have hne2 : files ≠ [] := by
          intro h0; rw [h0] at hl; simp at hl
        have hsel : selectBestSVG U files techName ≠ [] :=
          hpaths _ (selectBestSVG_mem U files techName hne2)
        simp only [hl, hsel, if_false]
        rcases CopyFile os (selectBestSVG U files techName)
          (joinPath outputDir (techName ++ svgSuffix)) w with ⟨w1, _ | e⟩ <;> simp
    · simp

theorem selectBestSVG_total_witness :
    ["icons/react/react.svg".toList] ≠ [] ∧
    (selectBestSVG asciiTables ["icons/react/react.svg".toList] "react".toList
        ∈ ["icons/react/react.svg".toList] ∧
      (∀ only : GoString, selectBestSVG asciiTables [only] "react".toList = only) ∧
      ((∀ f ∈ ["icons/react/react.svg".toList], f ≠ []) →
        selectBestSVG asciiTables ["icons/react/react.svg".toList] "react".toList ≠ []) ∧
      (∀ (os : OS) (outputDir techPath : GoString) (tree : FSNode) (w : Effects),
        (processTechDirectory asciiTables os outputDir techPath "react".toList tree w).2
          ≠ some ProcError.noSuitableSVG)) :=
  ⟨by decide, selectBestSVG_total asciiTables ["icons/react/react.svg".toList] "react".toList
    (by decide)⟩

/-! ## Worker count and tally -/

/-- C8. For a CPU count of at least one, the number of workers started is
`min(numCPU, 8, len(jobs))`: at most 8, at most the number of jobs, and at least
one when there is a job. -/
theorem workersStarted_eq_min (numCPU : Int) (lenJobs : Nat) (hc : 1 ≤ numCPU) :
    (workersStarted numCPU lenJobs : Int) = min (min numCPU 8) (lenJobs : Int) ∧
    workersStarted numCPU lenJobs ≤ 8 ∧
    workersStarted numCPU lenJobs ≤ lenJobs ∧
    (1 ≤ lenJobs → 1 ≤ workersStarted numCPU lenJobs) := by
  unfold workersStarted numWorkers
  simp only []
  split_ifs <;> omega

theorem workersStarted_eq_min_witness :
    (1 : Int) ≤ 16 ∧
    ((workersStarted 16 3 : Int) = min (min 16 8) ((3 : Nat) : Int) ∧
    workersStarted 16 3 ≤ 8 ∧
    workersStarted 16 3 ≤ 3 ∧
    (1 ≤ 3 → 1 ≤ workersStarted 16 3)) :=
  ⟨by decide, workersStarted_eq_min 16 3 (by decide)⟩

theorem wrapInt64_add_one (a : Int) : wrapInt64 (wrapInt64 a + 1) = wrapInt64 (a + 1) := by
  unfold wrapInt64; omega

theorem wrapInt64_of_small (a : Int) (h0 : 0 ≤ a) (h1 : a < 9223372036854775808) :
    wrapInt64 a = a := by
  unfold wrapInt64; omega

theorem tally_foldl (results : List ProcessingResult) (p q : Int) :
    results.foldl tallyStep (wrapInt64 p, wrapInt64 q)
      = (wrapInt64 (p + (results.countP (fun r => r.success) : Nat)),
         wrapInt64 (q + (results.countP (fun r => !r.success) : Nat))) := by
  induction results generalizing p q with
  | nil => simp
  | cons r rest ih =>
    cases hr : r.success with
    | true =>
      simp only [List.foldl_cons, tallyStep, hr, if_true, addInt64, wrapInt64_add_one]
      rw [ih]
      simp [List.countP_cons, hr]
      congr 1; omega
    | false =>
      simp only [List.foldl_cons, tallyStep, hr, addInt64, wrapInt64_add_one]
      simp only [Bool.false_eq_true, if_false]
      rw [ih]
      simp [List.countP_cons, hr]
      congr 1; omega

theorem tally_eq (results : List ProcessingResult) :
    tally results
      = (wrapInt64 (results.countP (fun r => r.success) : Nat),
         wrapInt64 (results.countP (fun r => !r.success) : Nat)) := by
  have h := tally_foldl results 0 0
  have h0 : wrapInt64 0 = 0 := by decide
  rw [h0] at h
  simpa [tally] using h

/-- C10. The tally of a sequence of results equals the tally of every
permutation of it; and, a result sequence being shorter than 2^63, the pair is
(number of results with `success` true, number with `success` false). -/
theorem tally_perm (results results2 : List ProcessingResult)
    (hperm : results.Perm results2) :
    tally results = tally results2 ∧
    (results.length < 2 ^ 63 →
      tally results = (((results.countP (fun r => r.success) : Nat) : Int),
                       ((results.countP (fun r => !r.success) : Nat) : Int))) := by
  constructor
  · rw [tally_eq, tally_eq, hperm.countP_eq, hperm.countP_eq]
  · intro hlen
    have h1 := List.countP_le_length (fun r : ProcessingResult => r.success) (l := results)
    have h2 := List.countP_le_length (fun r : ProcessingResult => !r.success) (l := results)
    have hlen2 : results.length < 9223372036854775808 := by
      have : (2 : Nat) ^ 63 = 9223372036854775808 := by norm_num
      omega
    rw [tally_eq, wrapInt64_of_small _ (by omega) (by omega),
      wrapInt64_of_small _ (by omega) (by omega)]

theorem tally_perm_witness :
    sampleResults.Perm sampleResultsSwapped ∧
    tally sampleResults = (2, 1) ∧
    (tally sampleResults = tally sampleResultsSwapped ∧
     (sampleResults.length < 2 ^ 63 →
      tally sampleResults
        = (((sampleResults.countP (fun r => r.success) : Nat) : Int),
           ((sampleResults.countP (fun r => !r.success) : Nat) : Int)))) :=
  ⟨List.Perm.swap _ _ _, by decide,
    tally_perm sampleResults sampleResultsSwapped (List.Perm.swap _ _ _)⟩

/-! ## The dispatcher -/

@[simp] theorem sumBy_nil {α : Type} (f : α → Nat) : sumBy f [] = 0 := rfl

@[simp] theorem sumBy_cons {α : Type} (f : α → Nat) (x : α) (l : List α) :
    sumBy f (x :: l) = f x + sumBy f l := by
  simp [sumBy]

@[simp] theorem sumBy_append {α : Type} (f : α → Nat) (l m : List α) :
    sumBy f (l ++ m) = sumBy f l + sumBy f m := by
  simp [sumBy]

theorem sumBy_set {α : Type} (f : α → Nat) (l : List α) (i : Nat) (x y : α)
    (h : l[i]? = some y) : sumBy f (l.set i x) + f y = sumBy f l + f x := by
  induction l generalizing i with
  | nil => simp at h
  | cons z l ih =>
    cases i with
    | zero =>
      simp at h; subst h
      simp; omega
    | succ i =>
      simp at h
      have := ih i h
      simp; omega

theorem workersStarted_pos (numCPU : Int) (lenJobs : Nat) (hc : 1 ≤ numCPU)
    (hn : 1 ≤ lenJobs) : 1 ≤ workersStarted numCPU lenJobs := by
  unfold workersStarted numWorkers
  simp only []
  split_ifs <;> omega

theorem lt_numWorkers_iff (numCPU : Int) (lenJobs i : Nat) :
    (i : Int) < numWorkers numCPU lenJobs ↔ i < workersStarted numCPU lenJobs := by
  unfold workersStarted; omega

/-- Every successful step is one of the fourteen transitions. -/
theorem step_fires (cfg : Config) (s s1 : DState) (a : Action)
    (h : step cfg s a = StepResult.ok s1) : Fires cfg s s1 := by
  cases a with
  | main =>
    simp only [step, stepMain] at h
    split at h
    · rename_i i hm
      split at h
      · rename_i hlt
        injection h with h; subst h
        exact Fires.spawn i hm ((lt_numWorkers_iff _ _ _).mp hlt)
      · rename_i hlt
        injection h with h; subst h
        refine Fires.spawnDone i hm ?_
        have := (lt_numWorkers_iff cfg.numCPU cfg.jobs.length i).not.mp hlt
        omega
    · rename_i hm
      injection h with h; subst h
      exact Fires.goSender hm
    · rename_i hm
      injection h with h; subst h
      exact Fires.goCloser hm
    · rename_i hm
      split at h
      · rename_i result rest hr
        injection h with h; subst h
        exact Fires.collect result rest hm hr
      · rename_i hr
        split at h
        · rename_i hc
          injection h with h; subst h
          exact Fires.finish hm hr hc
        · cases h
    · cases h
  | sender =>
    simp only [step, stepSender] at h
    split at h
    · cases h
    · rename_i job rest hs
      split at h
      · cases h
      · rename_i hc
        split at h
        · rename_i hroom
          injection h with h; subst h
          exact Fires.sendJob job rest hs (by simpa using hc) hroom
        · cases h
    · rename_i hs
      split at h
      · cases h
      · rename_i hc
        injection h with h; subst h
        exact Fires.closeJobs hs (by simpa using hc)
    · cases h
  | closer =>
    simp only [step, stepCloser] at h
    split at h
    · cases h
    · rename_i hcl
      split at h
      · rename_i hwg
        injection h with h; subst h
        exact Fires.waitDone hcl hwg
      · cases h
    · rename_i hcl
      split at h
      · cases h
      · rename_i hc
        injection h with h; subst h
        exact Fires.closeResults hcl (by simpa using hc)
    · cases h
  | worker i =>
    simp only [step, stepWorker] at h
    split at h
    · cases h
    · rename_i hw
      split at h
      · rename_i job rest hj
        injection h with h; subst h
        exact Fires.recvJob i job rest hw hj
      · rename_i hj
        split at h
        · rename_i hc
          split at h
          · cases h
          · rename_i hwg
            injection h with h; subst h
            exact Fires.workerExit i hw hj hc (by omega)
        · cases h
    · rename_i job hw
      injection h with h; subst h
      exact Fires.runJob i job hw
    · rename_i result hw
      split at h
      · cases h
      · rename_i hc
        split at h
        · rename_i hroom
          injection h with h; subst h
          exact Fires.sendResult i result hw (by simpa using hc) hroom
        · cases h
    · cases h

theorem sumBy_le_of_get {α : Type} (f : α → Nat) (l : List α) (i : Nat) (y : α)
    (h : l[i]? = some y) : f y ≤ sumBy f l := by
  induction l generalizing i with
  | nil => simp at h
  | cons z l ih =>
    cases i with
    | zero => simp at h; subst h; simp
    | succ i =>
      simp at h
      have := ih i h
      simp; omega

theorem sumBy_activeWorker_le (l : List WorkerPC) : sumBy activeWorker l ≤ l.length := by
  induction l with
  | nil => simp
  | cons x l ih => cases x <;> simp [activeWorker] <;> omega

theorem sumBy_hitJob_le (cfg : Config) (b : Bool) (l : List TechDirJob) :
    sumBy (hitJob cfg b) l ≤ l.length := by
  induction l with
  | nil => simp
  | cons x l ih =>
    simp only [sumBy_cons, List.length_cons, hitJob]
    split <;> omega

theorem hitJob_total (cfg : Config) (l : List TechDirJob) :
    sumBy (hitJob cfg true) l + sumBy (hitJob cfg false) l = l.length := by
  induction l with
  | nil => simp
  | cons x l ih =>
    simp only [sumBy_cons, List.length_cons, hitJob]
    cases (cfg.outcome x).isNone <;> simp <;> omega

theorem hitResult_resultOf (cfg : Config) (b : Bool) (job : TechDirJob) :
    hitResult b (resultOf cfg job) = hitJob cfg b job := by
  simp [hitResult, resultOf, hitJob]

theorem counter_tallyStep (b : Bool) (counts : Int × Int) (r : ProcessingResult)
    (h0 : 0 ≤ counter b counts)
    (h1 : counter b counts + (hitResult b r : Nat) < 9223372036854775808) :
    counter b (tallyStep counts r) = counter b counts + (hitResult b r : Nat) := by
  cases b <;> cases hr : r.success <;>
    simp [counter, tallyStep, hitResult, hr, addInt64] at h0 h1 ⊢ <;>
    exact wrapInt64_of_small _ (by omega) (by omega)

theorem inv_initState (cfg : Config) : Inv cfg initState := by
  refine ⟨?_, ?_, ?_, ?_, ?_, ?_, ?_, ?_, ?_, ?_, ?_, ?_⟩ <;>
    simp [initState, phase, pending, unsent, counter]

/-- Every transition consumes exactly one unit of `stepsLeft`. -/
theorem fires_stepsLeft (cfg : Config) (s s1 : DState) (hI : Inv cfg s) (h : Fires cfg s s1) :
    stepsLeft cfg s1 + 1 = stepsLeft cfg s := by
  cases h with
  | spawn i hm hlt =>
    simp only [stepsLeft, hm, mainSteps, sumBy_append, sumBy_cons, sumBy_nil, workerSteps]
    omega
  | spawnDone i hm hge =>
    simp only [stepsLeft, hm, mainSteps]
    omega
  | goSender hm =>
    have hs : s.sender = SenderPC.notStarted := hI.senderPhase.mpr (by simp [hm, phase])
    simp only [stepsLeft, hm, hs, mainSteps, senderSteps]; omega
  | goCloser hm =>
    have hc : s.closer = CloserPC.notStarted := hI.closerPhase.mpr (by simp [hm, phase])
    simp only [stepsLeft, hm, hc, mainSteps, closerSteps]; omega
  | collect result rest hm hr => simp only [stepsLeft, hr, List.length_cons]; omega
  | finish hm hr hc => simp only [stepsLeft, hm, mainSteps]; omega
  | sendJob job rest hs hc hroom =>
    simp only [stepsLeft, hs, senderSteps, List.length_cons, List.length_append,
      List.length_singleton, List.length_nil]
    omega
  | closeJobs hs hc => simp only [stepsLeft, hs, senderSteps, List.length_nil]; omega
  | waitDone hcl hwg => simp only [stepsLeft, hcl, closerSteps]; omega
  | closeResults hcl hc => simp only [stepsLeft, hcl, closerSteps]; omega
  | recvJob i job rest hw hj =>
    have := sumBy_set workerSteps s.workers i (.run job) _ hw
    simp only [stepsLeft, hj, List.length_cons]
    simp only [workerSteps] at this
    omega
  | workerExit i hw hj hc hwg =>
    have := sumBy_set workerSteps s.workers i .exited _ hw
    simp only [stepsLeft]
    simp only [workerSteps] at this
    omega
  | runJob i job hw =>
    have := sumBy_set workerSteps s.workers i (.send (resultOf cfg job)) _ hw
    simp only [stepsLeft]
    simp only [workerSteps] at this
    omega
  | sendResult i result hw hc hroom =>
    have := sumBy_set workerSteps s.workers i .recv _ hw
    simp only [stepsLeft, List.length_append, List.length_singleton]
    simp only [workerSteps] at this
    omega

/-- The invariant is preserved by every transition. -/
theorem fires_inv (cfg : Config) (hN : cfg.jobs.length < 9223372036854775808)
    (s s1 : DState) (hI : Inv cfg s) (h : Fires cfg s s1) : Inv cfg s1 := by
  obtain ⟨hSP, hCP, hSpawned, hAll, hRet, hWg, hJC, hRC, hLate, hEx, hCount, hNonneg⟩ := hI
  have hAct := sumBy_activeWorker_le s.workers
  cases h with
  | spawn i hm hlt =>
    have hsp := hSpawned i hm
    have hs : s.sender = SenderPC.notStarted := hSP.mpr (by simp [hm, phase])
    have hc : s.closer = CloserPC.notStarted := hCP.mpr (by simp [hm, phase])
    refine ⟨?_, ?_, ?_, ?_, ?_, ?_, ?_, ?_, ?_, ?_, ?_, ?_⟩
    · simp [phase, hs]
    · simp [phase, hc]
    · intro j hj
      simp only [MainPC.spawnLoop.injEq] at hj
      subst hj
      simp only [List.length_append, List.length_singleton]
      omega
    · simp [phase]
    · simp
    · simp only [sumBy_append, sumBy_cons, sumBy_nil, activeWorker]
      omega
    · exact hJC
    · exact hRC
    · simp [hc]
    · simp only [sumBy_append, sumBy_cons, sumBy_nil, activeWorker, List.length_append,
        List.length_singleton]
      intro hlt2
      exact hEx (by omega)
    · intro b
      have := hCount b
      simp only [pending, sumBy_append, sumBy_cons, sumBy_nil, hitWorker] at this ⊢
      omega
    · exact hNonneg
  | spawnDone i hm hge =>
    have hsp := hSpawned i hm
    have hs : s.sender = SenderPC.notStarted := hSP.mpr (by simp [hm, phase])
    have hc : s.closer = CloserPC.notStarted := hCP.mpr (by simp [hm, phase])
    refine ⟨?_, ?_, ?_, ?_, ?_, ?_, ?_, ?_, ?_, ?_, ?_, ?_⟩
    · simp [phase, hs]
    · simp [phase, hc]
    · intro j hj; simp at hj
    · intro _; show s.workers.length = _; omega
    · simp
    · exact hWg
    · exact hJC
    · exact hRC
    · exact hLate
    · exact hEx
    · exact hCount
    · exact hNonneg
  | goSender hm =>
    have hs : s.sender = SenderPC.notStarted := hSP.mpr (by simp [hm, phase])
    have hc : s.closer = CloserPC.notStarted := hCP.mpr (by simp [hm, phase])
    refine ⟨?_, ?_, ?_, ?_, ?_, ?_, ?_, ?_, ?_, ?_, ?_, ?_⟩
    · simp [phase]
    · simp [phase, hc]
    · intro j hj; simp at hj
    · intro _; exact hAll (by simp [hm, phase])
    · simp
    · exact hWg
    · have : ¬ s.jobChanClosed = true := fun h => by
        have := hJC.mp h; rw [hs] at this; cases this
      simpa using this
    · exact hRC
    · exact hLate
    · intro hlt
      have := (hEx hlt).1; rw [hs] at this; cases this
    · intro b
      have := hCount b
      simp only [pending, unsent, hs] at this ⊢
      exact this
    · exact hNonneg
  | goCloser hm =>
    have hs : ¬ s.sender = SenderPC.notStarted := fun h => by
      have := hSP.mp h; simp [hm, phase] at this
    have hc : s.closer = CloserPC.notStarted := hCP.mpr (by simp [hm, phase])
    refine ⟨?_, ?_, ?_, ?_, ?_, ?_, ?_, ?_, ?_, ?_, ?_, ?_⟩
    · simp [phase, hs]
    · simp [phase]
    · intro j hj; simp at hj
    · intro _; exact hAll (by simp [hm, phase])
    · simp
    · exact hWg
    · exact hJC
    · have : ¬ s.resultChanClosed = true := fun h => by
        have := hRC.mp h; rw [hc] at this; cases this
      simpa using this
    · simp
    · exact hEx
    · exact hCount
    · exact hNonneg
  | collect result rest hm hr =>
    have hstep : ∀ b, counter b (tallyStep s.counts result)
        = counter b s.counts + (hitResult b result : Nat) := by
      intro b
      apply counter_tallyStep b s.counts result (hNonneg b)
      have h1 := hCount b
      have h2 := sumBy_hitJob_le cfg b cfg.jobs
      simp only [pending, hr, sumBy_cons] at h1
      omega
    refine ⟨?_, ?_, ?_, ?_, ?_, ?_, ?_, ?_, ?_, ?_, ?_, ?_⟩
    · exact hSP
    · exact hCP
    · exact hSpawned
    · exact hAll
    · intro h; simp [hm] at h
    · exact hWg
    · exact hJC
    · exact hRC
    · exact hLate
    · exact hEx
    · intro b
      have h1 := hCount b
      simp only [pending, hr, sumBy_cons] at h1
      simp only [pending, hstep b]
      omega
    · intro b
      have := hNonneg b
      rw [hstep b]
      omega
  | finish hm hr hc =>
    have hs : ¬ s.sender = SenderPC.notStarted := fun h => by
      have := hSP.mp h; simp [hm, phase] at this
    have hcl : ¬ s.closer = CloserPC.notStarted := fun h => by
      have := hCP.mp h; simp [hm, phase] at this
    refine ⟨?_, ?_, ?_, ?_, ?_, ?_, ?_, ?_, ?_, ?_, ?_, ?_⟩
    · simp [phase, hs]
    · simp [phase, hcl]
    · intro j hj; simp at hj
    · intro _; exact hAll (by simp [hm, phase])
    · intro _; exact ⟨hc, hr⟩
    · exact hWg
    · exact hJC
    · exact hRC
    · exact hLate
    · exact hEx
    · exact hCount
    · exact hNonneg
  | sendJob job rest hs hc hroom =>
    have hph : ¬ phase s.main ≤ 1 := fun h => by
      have := hSP.mpr h; rw [hs] at this; cases this
    refine ⟨?_, ?_, ?_, ?_, ?_, ?_, ?_, ?_, ?_, ?_, ?_, ?_⟩
    · simp [hph]
    · exact hCP
    · exact hSpawned
    · exact hAll
    · intro h; exact hRet h
    · exact hWg
    · simp [hc]
    · exact hRC
    · exact hLate
    · intro hlt
      have := (hEx hlt).1; rw [hs] at this; cases this
    · intro b
      have h1 := hCount b
      simp only [pending, unsent, hs, sumBy_cons, sumBy_append, sumBy_nil] at h1 ⊢
      omega
    · exact hNonneg
  | closeJobs hs hc =>
    have hph : ¬ phase s.main ≤ 1 := fun h => by
      have := hSP.mpr h; rw [hs] at this; cases this
    refine ⟨?_, ?_, ?_, ?_, ?_, ?_, ?_, ?_, ?_, ?_, ?_, ?_⟩
    · simp [hph]
    · exact hCP
    · exact hSpawned
    · exact hAll
    · intro h; exact hRet h
    · exact hWg
    · simp
    · exact hRC
    · exact hLate
    · intro hlt
      have := (hEx hlt).1; rw [hs] at this; cases this
    · intro b
      have h1 := hCount b
      simp only [pending, unsent, hs, sumBy_nil] at h1 ⊢
      omega
    · exact hNonneg
  | waitDone hcl hwg =>
    have hph : ¬ phase s.main ≤ 2 := fun h => by
      have := hCP.mpr h; rw [hcl] at this; cases this
    refine ⟨?_, ?_, ?_, ?_, ?_, ?_, ?_, ?_, ?_, ?_, ?_, ?_⟩
    · exact hSP
    · simp [hph]
    · exact hSpawned
    · exact hAll
    · intro h; exact hRet h
    · exact hWg
    · exact hJC
    · have : ¬ s.resultChanClosed = true := fun h => by
        have := hRC.mp h; rw [hcl] at this; cases this
      simpa using this
    · intro _
      show sumBy activeWorker s.workers = 0
      omega
    · exact hEx
    · exact hCount
    · exact hNonneg
  | closeResults hcl hc =>
    have hph : ¬ phase s.main ≤ 2 := fun h => by
      have := hCP.mpr h; rw [hcl] at this; cases this
    refine ⟨?_, ?_, ?_, ?_, ?_, ?_, ?_, ?_, ?_, ?_, ?_, ?_⟩
    · exact hSP
    · simp [hph]
    · exact hSpawned
    · exact hAll
    · intro h; simp [(hRet h).2]
    · exact hWg
    · exact hJC
    · simp
    · intro _; exact hLate (Or.inl hcl)
    · exact hEx
    · exact hCount
    · exact hNonneg
  | recvJob i job rest hw hj =>
    have hact := sumBy_set activeWorker s.workers i (.run job) _ hw
    simp only [activeWorker] at hact
    refine ⟨?_, ?_, ?_, ?_, ?_, ?_, ?_, ?_, ?_, ?_, ?_, ?_⟩
    · exact hSP
    · exact hCP
    · simpa only [List.length_set] using hSpawned
    · simpa only [List.length_set] using hAll
    · intro h
      have := (hRet h)
      exact this
    · show s.wg = ((sumBy activeWorker (s.workers.set i (.run job)) : Nat) : Int)
      rw [hWg]; omega
    · exact hJC
    · exact hRC
    · intro h
      have := hLate h
      show sumBy activeWorker (s.workers.set i (.run job)) = 0
      omega
    · intro hlt
      simp only [List.length_set] at hlt
      have := (hEx (by omega)).2
      rw [hj] at this; cases this
    · intro b
      have h1 := hCount b
      have h2 := sumBy_set (hitWorker cfg b) s.workers i (.run job) _ hw
      simp only [hitWorker] at h2
      simp only [pending, hj, sumBy_cons] at h1 ⊢
      omega
    · exact hNonneg
  | workerExit i hw hj hc hwg =>
    have hact := sumBy_set activeWorker s.workers i .exited _ hw
    simp only [activeWorker] at hact
    refine ⟨?_, ?_, ?_, ?_, ?_, ?_, ?_, ?_, ?_, ?_, ?_, ?_⟩
    · exact hSP
    · exact hCP
    · simpa only [List.length_set] using hSpawned
    · simpa only [List.length_set] using hAll
    · intro h; exact hRet h
    · show s.wg - 1 = ((sumBy activeWorker (s.workers.set i .exited) : Nat) : Int)
      rw [hWg]; omega
    · exact hJC
    · exact hRC
    · intro h
      have := hLate h
      show sumBy activeWorker (s.workers.set i .exited) = 0
      omega
    · intro _
      exact ⟨hJC.mp hc, hj⟩
    · intro b
      have h1 := hCount b
      have h2 := sumBy_set (hitWorker cfg b) s.workers i .exited _ hw
      simp only [hitWorker] at h2
      simp only [pending] at h1 ⊢
      omega
    · exact hNonneg
  | runJob i job hw =>
    have hact := sumBy_set activeWorker s.workers i (.send (resultOf cfg job)) _ hw
    simp only [activeWorker] at hact
    refine ⟨?_, ?_, ?_, ?_, ?_, ?_, ?_, ?_, ?_, ?_, ?_, ?_⟩
    · exact hSP
    · exact hCP
    · simpa only [List.length_set] using hSpawned
    · simpa only [List.length_set] using hAll
    · intro h; exact hRet h
    · show s.wg = ((sumBy activeWorker (s.workers.set i (.send (resultOf cfg job))) : Nat) : Int)
      rw [hWg]; omega
    · exact hJC
    · exact hRC
    · intro h
      have := hLate h
      show sumBy activeWorker (s.workers.set i (.send (resultOf cfg job))) = 0
      omega
    · intro hlt
      simp only [List.length_set] at hlt
      exact hEx (by omega)
    · intro b
      have h1 := hCount b
      have h2 := sumBy_set (hitWorker cfg b) s.workers i (.send (resultOf cfg job)) _ hw
      simp only [hitWorker, hitResult_resultOf] at h2
      simp only [pending] at h1 ⊢
      omega
    · exact hNonneg
  | sendResult i result hw hc hroom =>
    have hact := sumBy_set activeWorker s.workers i .recv _ hw
    simp only [activeWorker] at hact
    refine ⟨?_, ?_, ?_, ?_, ?_, ?_, ?_, ?_, ?_, ?_, ?_, ?_⟩
    · exact hSP
    · exact hCP
    · simpa only [List.length_set] using hSpawned
    · simpa only [List.length_set] using hAll
    · intro h
      have := (hRet h).1
      rw [hc] at this; cases this
    · show s.wg = ((sumBy activeWorker (s.workers.set i .recv) : Nat) : Int)
      rw [hWg]; omega
    · exact hJC
    · exact hRC
    · intro h
      have := hLate h
      show sumBy activeWorker (s.workers.set i .recv) = 0
      omega
    · intro hlt
      simp only [List.length_set] at hlt
      exact hEx (by omega)
    · intro b
      have h1 := hCount b
      have h2 := sumBy_set (hitWorker cfg b) s.workers i .recv _ hw
      simp only [hitWorker] at h2
      simp only [pending, sumBy_append, sumBy_cons, sumBy_nil] at h1 ⊢
      omega
    · exact hNonneg

/-- Along every execution the invariant holds and the steps taken plus the steps
left add up to the steps left at the start. -/
theorem exec_inv (cfg : Config) (hN : cfg.jobs.length < 9223372036854775808)
    (trace : List Action) (s s1 : DState) (hI : Inv cfg s)
    (h : exec cfg trace s = some s1) :
    Inv cfg s1 ∧ trace.length + stepsLeft cfg s1 = stepsLeft cfg s := by
  induction trace generalizing s with
  | nil =>
    simp only [exec, Option.some.injEq] at h
    subst h
    exact ⟨hI, by simp⟩
  | cons a rest ih =>
    simp only [exec] at h
    cases hs : step cfg s a with
    | blocked => rw [hs] at h; cases h
    | panic => rw [hs] at h; cases h
    | ok s2 =>
      rw [hs] at h
      have hf := step_fires cfg s s2 a hs
      have hI2 := fires_inv cfg hN s s2 hI hf
      have hm := fires_stepsLeft cfg s s2 hI hf
      obtain ⟨hI1, hl⟩ := ih s2 hI2 h
      refine ⟨hI1, ?_⟩
      simp only [List.length_cons]
      omega

theorem stepsLeft_initState (cfg : Config) : stepsLeft cfg initState = stepBound cfg := by
  simp [stepsLeft, initState, mainSteps, senderSteps, closerSteps, stepBound]
  omega

/-- In a state satisfying the invariant no thread panics. -/
theorem inv_no_panic (cfg : Config) (s : DState) (hI : Inv cfg s) (a : Action) :
    step cfg s a ≠ StepResult.panic := by
  intro h
  cases a with
  | main =>
    simp only [step, stepMain] at h
    repeat' split at h
    all_goals cases h
  | sender =>
    simp only [step, stepSender] at h
    split at h
    · cases h
    · rename_i job rest hs
      split at h
      · rename_i hc
        have := hI.jobClosed.mp hc
        rw [hs] at this; cases this
      · split at h <;> cases h
    · rename_i hs
      split at h
      · rename_i hc
        have := hI.jobClosed.mp hc
        rw [hs] at this; cases this
      · cases h
    · cases h
  | closer =>
    simp only [step, stepCloser] at h
    split at h
    · cases h
    · split at h <;> cases h
    · rename_i hcl
      split at h
      · rename_i hc
        have := hI.resClosed.mp hc
        rw [hcl] at this; cases this
      · cases h
    · cases h
  | worker i =>
    simp only [step, stepWorker] at h
    split at h
    · cases h
    · rename_i hw
      have hge := sumBy_le_of_get activeWorker s.workers i _ hw
      simp only [activeWorker] at hge
      have hwg := hI.wgCount
      split at h
      · cases h
      · split at h
        · split at h
          · rename_i hneg
            omega
          · cases h
        · cases h
    · cases h
    · rename_i result hw
      have hge := sumBy_le_of_get activeWorker s.workers i _ hw
      simp only [activeWorker] at hge
      split at h
      · rename_i hc
        have := hI.closerLate (Or.inr (hI.resClosed.mp hc))
        omega
      · split at h <;> cases h
    · cases h

theorem exists_active (l : List WorkerPC) (h : 0 < sumBy activeWorker l) :
    ∃ (i : Nat) (pc : WorkerPC), l[i]? = some pc ∧ pc ≠ WorkerPC.exited := by
  induction l with
  | nil => simp at h
  | cons x l ih =>
    by_cases hx : x = WorkerPC.exited
    · subst hx
      simp only [sumBy_cons, activeWorker, Nat.zero_add] at h
      obtain ⟨i, pc, hi, hp⟩ := ih h
      exact ⟨i + 1, pc, by simpa using hi, hp⟩
    · exact ⟨0, x, by simp, hx⟩

theorem sumBy_hitWorker_of_inactive (cfg : Config) (b : Bool) (l : List WorkerPC)
    (h : sumBy activeWorker l = 0) : sumBy (hitWorker cfg b) l = 0 := by
  induction l with
  | nil => simp
  | cons x l ih =>
    cases x <;> simp [activeWorker, hitWorker] at h ⊢
    exact ih h

theorem sumBy_hitJob_eq_countP (cfg : Config) (b : Bool) (l : List TechDirJob) :
    sumBy (hitJob cfg b) l = l.countP (fun job => (cfg.outcome job).isNone == b) := by
  induction l with
  | nil => simp
  | cons x l ih =>
    simp only [sumBy_cons, List.countP_cons, ih, hitJob]
    by_cases hx : (cfg.outcome x).isNone = b
    · simp [hx]; omega
    · simp [hx]

theorem hitJob_pair (cfg : Config) (job : TechDirJob) :
    hitJob cfg true job + hitJob cfg false job = 1 := by
  simp only [hitJob]
  cases (cfg.outcome job).isNone <;> simp

theorem hitResult_pair (r : ProcessingResult) : hitResult true r + hitResult false r = 1 := by
  simp only [hitResult]
  cases r.success <;> simp

/-- While a job is under way the job list is not empty. -/
theorem inv_jobs_pos (cfg : Config) (s : DState) (hI : Inv cfg s)
    (h : 1 ≤ pending cfg true s + pending cfg false s) : 0 < cfg.jobs.length := by
  have h1 := hI.count true
  have h2 := hI.count false
  have h3 := hI.nonneg true
  have h4 := hI.nonneg false
  have h5 := hitJob_total cfg cfg.jobs
  omega

/-- In a state satisfying the invariant in which the calling goroutine has not
returned, some thread can step. -/
theorem inv_progress (cfg : Config) (s : DState) (hI : Inv cfg s)
    (hm : s.main ≠ MainPC.returned) : ∃ a s1, step cfg s a = StepResult.ok s1 := by
  cases hmain : s.main with
  | spawnLoop i =>
    refine ⟨Action.main, ?_⟩
    simp only [step, stepMain, hmain]
    split <;> exact ⟨_, rfl⟩
  | goSender =>
    refine ⟨Action.main, ?_⟩
    simp only [step, stepMain, hmain]
    exact ⟨_, rfl⟩
  | goCloser =>
    refine ⟨Action.main, ?_⟩
    simp only [step, stepMain, hmain]
    exact ⟨_, rfl⟩
  | returned => exact absurd hmain hm
  | collect =>
    cases hr : s.resultChan with
    | cons r rest =>
      refine ⟨Action.main, ?_⟩
      simp only [step, stepMain, hmain, hr]
      exact ⟨_, rfl⟩
    | nil =>
      cases hc : s.resultChanClosed with
      | true =>
        refine ⟨Action.main, ?_⟩
        simp only [step, stepMain, hmain, hr, hc, if_true]
        exact ⟨_, rfl⟩
      | false =>
        have hcl1 : s.closer ≠ CloserPC.done := fun h => by
          have := hI.resClosed.mpr h; rw [hc] at this; cases this
        have hcl2 : s.closer ≠ CloserPC.notStarted := fun h => by
          have := hI.closerPhase.mp h; simp [hmain, phase] at this
        have hsn : s.sender ≠ SenderPC.notStarted := fun h => by
          have := hI.senderPhase.mp h; simp [hmain, phase] at this
        cases hcl : s.closer with
        | done => exact absurd hcl hcl1
        | notStarted => exact absurd hcl hcl2
        | closing =>
          refine ⟨Action.closer, ?_⟩
          simp only [step, stepCloser, hcl, hc]
          exact ⟨_, rfl⟩
        | waiting =>
          by_cases hwg : s.wg = 0
          · refine ⟨Action.closer, ?_⟩
            simp only [step, stepCloser, hcl, hwg, if_true]
            exact ⟨_, rfl⟩
          · have hpos : 0 < sumBy activeWorker s.workers := by
              have := hI.wgCount; omega
            obtain ⟨i, pc, hw, hne⟩ := exists_active s.workers hpos
            have hge := sumBy_le_of_get activeWorker s.workers i _ hw
            have hwgc := hI.wgCount
            cases pc with
            | exited => exact absurd rfl hne
            | run job =>
              refine ⟨Action.worker i, ?_⟩
              simp only [step, stepWorker, hw]
              exact ⟨_, rfl⟩
            | send result =>
              refine ⟨Action.worker i, ?_⟩
              have hpend : 1 ≤ pending cfg true s + pending cfg false s := by
                have h1 := sumBy_le_of_get (hitWorker cfg true) s.workers i _ hw
                have h2 := sumBy_le_of_get (hitWorker cfg false) s.workers i _ hw
                have h3 := hitResult_pair result
                simp only [hitWorker] at h1 h2
                simp only [pending]
                omega
              have hN := inv_jobs_pos cfg s hI hpend
              simp only [step, stepWorker, hw, hc, hr, List.length_nil, hN, if_true]
              exact ⟨_, rfl⟩
            | recv =>
              simp only [activeWorker] at hge
              cases hj : s.jobChan with
              | cons job rest =>
                refine ⟨Action.worker i, ?_⟩
                simp only [step, stepWorker, hw, hj]
                exact ⟨_, rfl⟩
              | nil =>
                cases hjc : s.jobChanClosed with
                | true =>
                  refine ⟨Action.worker i, ?_⟩
                  have hnn : ¬ (s.wg - 1 < 0) := by omega
                  simp only [step, stepWorker, hw, hj, hjc, hnn, if_true, if_false]
                  exact ⟨_, rfl⟩
                | false =>
                  refine ⟨Action.sender, ?_⟩
                  have hsd : s.sender ≠ SenderPC.done := fun h => by
                    have := hI.jobClosed.mpr h; rw [hjc] at this; cases this
                  cases hsend : s.sender with
                  | notStarted => exact absurd hsend hsn
                  | done => exact absurd hsend hsd
                  | sending l =>
                    cases l with
                    | nil =>
                      simp only [step, stepSender, hsend, hjc]
                      exact ⟨_, rfl⟩
                    | cons job rest =>
                      have hpend : 1 ≤ pending cfg true s + pending cfg false s := by
                        have h3 := hitJob_pair cfg job
                        simp only [pending, unsent, hsend, sumBy_cons]
                        omega
                      have hN := inv_jobs_pos cfg s hI hpend
                      simp only [step, stepSender, hsend, hjc, hj, List.length_nil, hN, if_true]
                      exact ⟨_, rfl⟩

theorem all_exited_of_inactive (l : List WorkerPC) (h : sumBy activeWorker l = 0) :
    ∀ pc ∈ l, pc = WorkerPC.exited := by
  induction l with
  | nil => simp
  | cons x l ih =>
    cases x <;> simp [activeWorker] at h ⊢
    exact ih h

/-- When the calling goroutine has returned, the counters hold the number of
jobs that succeeded and the number that failed. -/
theorem inv_returned (cfg : Config) (hc : 1 ≤ cfg.numCPU) (s : DState) (hI : Inv cfg s)
    (hm : s.main = MainPC.returned) :
    s.counts.1 = ((cfg.jobs.countP (fun job => (cfg.outcome job).isNone) : Nat) : Int) ∧
    s.counts.2 = ((cfg.jobs.countP (fun job => !(cfg.outcome job).isNone) : Nat) : Int) ∧
    s.counts.1 + s.counts.2 = (cfg.jobs.length : Int) ∧
    s.resultChan = [] ∧ s.jobChan = [] ∧
    s.workers.length = workersStarted cfg.numCPU cfg.jobs.length ∧
    (∀ pc ∈ s.workers, pc = WorkerPC.exited) := by
  obtain ⟨hclosed, hres⟩ := hI.returned hm
  have hinact : sumBy activeWorker s.workers = 0 := hI.closerLate (Or.inr (hI.resClosed.mp hclosed))
  have hlen : s.workers.length = workersStarted cfg.numCPU cfg.jobs.length :=
    hI.allSpawned (by simp [hm, phase])
  have hW := workersStarted_pos cfg.numCPU cfg.jobs.length hc
  have hpend : ∀ b, pending cfg b s = 0 := by
    intro b
    by_cases hz : cfg.jobs.length = 0
    · have h1 := hI.count b
      have h2 := hI.nonneg b
      have h3 := sumBy_hitJob_le cfg b cfg.jobs
      omega
    · have hex := hI.exited (by omega)
      have hw := sumBy_hitWorker_of_inactive cfg b s.workers hinact
      simp [pending, hex.1, hex.2, unsent, hw, hres]
  have hjob : s.jobChan = [] := by
    have h1 := hpend true
    have h2 := hpend false
    have h3 := hitJob_total cfg s.jobChan
    simp only [pending] at h1 h2
    have : s.jobChan.length = 0 := by omega
    exact List.length_eq_zero.mp this
  have ht := hI.count true
  have hf := hI.count false
  rw [hpend true, sumBy_hitJob_eq_countP] at ht
  rw [hpend false, sumBy_hitJob_eq_countP] at hf
  have htot := hitJob_total cfg cfg.jobs
  rw [sumBy_hitJob_eq_countP, sumBy_hitJob_eq_countP] at htot
  simp only [counter, if_true, Bool.false_eq_true, if_false, Nat.cast_zero, add_zero,
    beq_true, beq_false] at ht hf htot
  refine ⟨ht, hf, ?_, hres, hjob, hlen, all_exited_of_inactive s.workers hinact⟩
  rw [ht, hf]
  omega

/-- From every state satisfying the invariant some execution lets the calling
goroutine return. -/
theorem exists_run (cfg : Config) (hN : cfg.jobs.length < 9223372036854775808) (n : Nat) :
    ∀ s, Inv cfg s → stepsLeft cfg s = n →
      ∃ trace s1, exec cfg trace s = some s1 ∧ s1.main = MainPC.returned := by
  induction n with
  | zero =>
    intro s hI hn
    by_cases hm : s.main = MainPC.returned
    · exact ⟨[], s, rfl, hm⟩
    · obtain ⟨a, s2, hs⟩ := inv_progress cfg s hI hm
      have := fires_stepsLeft cfg s s2 hI (step_fires cfg s s2 a hs)
      omega
  | succ n ih =>
    intro s hI hn
    by_cases hm : s.main = MainPC.returned
    · exact ⟨[], s, rfl, hm⟩
    · obtain ⟨a, s2, hs⟩ := inv_progress cfg s hI hm
      have hf := step_fires cfg s s2 a hs
      have hl := fires_stepsLeft cfg s s2 hI hf
      obtain ⟨trace, s1, he, hr⟩ := ih s2 (fires_inv cfg hN s s2 hI hf) (by omega)
      exact ⟨a :: trace, s1, by simp [exec, hs, he], hr⟩

theorem firstEnabled_some (cfg : Config) (s s1 : DState) (a : Action) (l : List Action)
    (h : firstEnabled cfg s l = some (a, s1)) : step cfg s a = StepResult.ok s1 := by
  induction l with
  | nil => simp [firstEnabled] at h
  | cons b l ih =>
    simp only [firstEnabled] at h
    cases hb : step cfg s b with
    | blocked => rw [hb] at h; exact ih h
    | panic => rw [hb] at h; exact ih h
    | ok s2 =>
      rw [hb] at h
      simp only [Option.some.injEq, Prod.mk.injEq] at h
      rw [← h.1, ← h.2]; exact hb

theorem firstEnabled_none (cfg : Config) (s : DState) (l : List Action)
    (h : firstEnabled cfg s l = none) : ∀ a ∈ l, ∀ s1, step cfg s a ≠ StepResult.ok s1 := by
  induction l with
  | nil => simp
  | cons b l ih =>
    simp only [firstEnabled] at h
    intro a ha s1 hs
    cases hb : step cfg s b with
    | blocked =>
      rw [hb] at h
      rcases List.mem_cons.mp ha with rfl | ha
      · rw [hb] at hs; cases hs
      · exact ih h a ha s1 hs
    | panic =>
      rw [hb] at h
      rcases List.mem_cons.mp ha with rfl | ha
      · rw [hb] at hs; cases hs
      · exact ih h a ha s1 hs
    | ok s2 => rw [hb] at h; cases h

theorem mem_allActions (cfg : Config) (s s1 : DState) (a : Action)
    (h : step cfg s a = StepResult.ok s1) : a ∈ allActions s := by
  cases a with
  | main => simp [allActions]
  | sender => simp [allActions]
  | closer => simp [allActions]
  | worker i =>
    simp only [allActions, List.mem_append, List.mem_map, List.mem_range]
    right
    refine ⟨i, ?_, rfl⟩
    by_contra hlt
    have : s.workers[i]? = none := by
      apply List.getElem?_eq_none; omega
    simp [step, stepWorker, this] at h

/-- With fuel for all the steps left, the first-enabled scheduler ends in a state
where the calling goroutine has returned, and that state is the end of an
execution. -/
theorem runFirstEnabled_returns (cfg : Config) (hN : cfg.jobs.length < 9223372036854775808)
    (fuel : Nat) : ∀ s, Inv cfg s → stepsLeft cfg s ≤ fuel →
      (runFirstEnabled cfg fuel s).main = MainPC.returned ∧
      ∃ trace, exec cfg trace s = some (runFirstEnabled cfg fuel s) := by
  induction fuel with
  | zero =>
    intro s hI hn
    refine ⟨?_, [], rfl⟩
    by_contra hm
    obtain ⟨a, s2, hs⟩ := inv_progress cfg s hI hm
    have := fires_stepsLeft cfg s s2 hI (step_fires cfg s s2 a hs)
    omega
  | succ fuel ih =>
    intro s hI hn
    simp only [runFirstEnabled]
    cases hfe : firstEnabled cfg s (allActions s) with
    | none =>
      refine ⟨?_, [], rfl⟩
      by_contra hm
      obtain ⟨a, s2, hs⟩ := inv_progress cfg s hI hm
      exact firstEnabled_none cfg s _ hfe a (mem_allActions cfg s s2 a hs) s2 hs
    | some p =>
      obtain ⟨a, s2⟩ := p
      have hs := firstEnabled_some cfg s s2 a _ hfe
      have hf := step_fires cfg s s2 a hs
      have hl := fires_stepsLeft cfg s s2 hI hf
      obtain ⟨hr, trace, he⟩ := ih s2 (fires_inv cfg hN s s2 hI hf) (by omega)
      exact ⟨hr, a :: trace, by simp [exec, hs, he]⟩

/-- C7. For a CPU count of at least one and a job list of any length `N` (below
2^63, the empty list included), every execution of `processDirectoriesParallel`
takes at most `5 N + 2 W + 7` steps, never panics, and can always take a further
step until the calling goroutine has returned (no deadlock); when it has
returned, `processedCount` is the number of jobs whose `processTechDirectory`
returned no error, `skippedCount` the number of the others, their sum is `N`,
both channels are empty, `min(numCPU, 8, N)` workers were started and every one
of them has exited.  Some execution returns,
and the first-enabled scheduler computes these counts. -/
theorem processDirectoriesParallel_counts (cfg : Config) (hc : 1 ≤ cfg.numCPU)
    (hN : cfg.jobs.length < 2 ^ 63) :
    (∀ trace s, exec cfg trace initState = some s →
      trace.length ≤ stepBound cfg ∧
      (∀ a, step cfg s a ≠ StepResult.panic) ∧
      (s.main ≠ MainPC.returned → ∃ a s1, step cfg s a = StepResult.ok s1) ∧
      (s.main = MainPC.returned →
        s.counts.1 = ((cfg.jobs.countP (fun job => (cfg.outcome job).isNone) : Nat) : Int) ∧
        s.counts.2 = ((cfg.jobs.countP (fun job => !(cfg.outcome job).isNone) : Nat) : Int) ∧
        s.counts.1 + s.counts.2 = (cfg.jobs.length : Int) ∧
        s.resultChan = [] ∧ s.jobChan = [] ∧
        s.workers.length = workersStarted cfg.numCPU cfg.jobs.length ∧
        (∀ pc ∈ s.workers, pc = WorkerPC.exited))) ∧
    (∃ trace s, exec cfg trace initState = some s ∧ s.main = MainPC.returned) ∧
    processDirectoriesParallel cfg
      = (((cfg.jobs.countP (fun job => (cfg.outcome job).isNone) : Nat) : Int),
         ((cfg.jobs.countP (fun job => !(cfg.outcome job).isNone) : Nat) : Int)) := by
  have hN1 : cfg.jobs.length < 9223372036854775808 := by
    have : (2 : Nat) ^ 63 = 9223372036854775808 := by norm_num
    omega
  have hI0 := inv_initState cfg
  refine ⟨?_, ?_, ?_⟩
  · intro trace s h
    obtain ⟨hI, hl⟩ := exec_inv cfg hN1 trace initState s hI0 h
    rw [stepsLeft_initState] at hl
    exact ⟨by omega, inv_no_panic cfg s hI, inv_progress cfg s hI, inv_returned cfg hc s hI⟩
  · exact exists_run cfg hN1 _ initState hI0 rfl
  · obtain ⟨hr, trace, he⟩ := runFirstEnabled_returns cfg hN1 (stepBound cfg) initState hI0
      (by rw [stepsLeft_initState])
    obtain ⟨hI, _⟩ := exec_inv cfg hN1 trace initState _ hI0 he
    obtain ⟨h1, h2, _⟩ := inv_returned cfg hc _ hI hr
    unfold processDirectoriesParallel
    exact Prod.ext h1 h2

theorem processDirectoriesParallel_counts_witness :
    (1 : Int) ≤ sampleConfig.numCPU ∧ sampleConfig.jobs.length < 2 ^ 63 ∧
    (exec sampleConfig sampleSchedule initState).map (fun s => (s.main, s.counts))
      = some (MainPC.returned, (2, 1)) ∧
    ((∀ trace s, exec sampleConfig trace initState = some s →
      trace.length ≤ stepBound sampleConfig ∧
      (∀ a, step sampleConfig s a ≠ StepResult.panic) ∧
      (s.main ≠ MainPC.returned → ∃ a s1, step sampleConfig s a = StepResult.ok s1) ∧
      (s.main = MainPC.returned →
        s.counts.1 = ((sampleConfig.jobs.countP
          (fun job => (sampleConfig.outcome job).isNone) : Nat) : Int) ∧
        s.counts.2 = ((sampleConfig.jobs.countP
          (fun job => !(sampleConfig.outcome job).isNone) : Nat) : Int) ∧
        s.counts.1 + s.counts.2 = (sampleConfig.jobs.length : Int) ∧
        s.resultChan = [] ∧ s.jobChan = [] ∧
        s.workers.length = workersStarted sampleConfig.numCPU sampleConfig.jobs.length ∧
        (∀ pc ∈ s.workers, pc = WorkerPC.exited))) ∧
    (∃ trace s, exec sampleConfig trace initState = some s ∧ s.main = MainPC.returned) ∧
    processDirectoriesParallel sampleConfig
      = (((sampleConfig.jobs.countP
            (fun job => (sampleConfig.outcome job).isNone) : Nat) : Int),
         ((sampleConfig.jobs.countP
            (fun job => !(sampleConfig.outcome job).isNone) : Nat) : Int))) :=
  ⟨by decide, by decide, by decide,
    processDirectoriesParallel_counts sampleConfig (by decide) (by decide)⟩

end Devicon
